import Mathlib

/-!
# flatten_edep_info: `read_volume_list` and the event loop of `main`

A shallow embedding of `src/flatten_edep_info/flatten_edep_info.cxx`.

Conventions of the embedding.

* `Double_t` values are exact rationals: rounding is not modelled, so sums of the
  same numbers taken in different orders are equal here and need not be equal in
  the program. `List.sum` in a statement stands for a running sum of the source,
  in the order of the source; the statement that relates two sums (C4) writes each
  as the left fold in which it is added up.
* `Int_t` / `int` values are integers. The source does no arithmetic on them (only
  assignments and comparisons). The conversion of the `Long64_t` loop index to the
  `Int_t` `event_id` is modelled (`to_Int_t`); waveform counts are taken below
  `2^31`, where the conversion `size_t -> int` of line 245 keeps the value.
* A pointer that may be null (`tg4_event`, `cenns_daq_v`) is an `Option`.
* `std::map<std::string, Double_t>` is the list of its entries in iteration order
  (ascending keys); `std::vector<Double_t>` is a list.
* A `std::string` is a `String`, read as the list of its characters; the `size_t`
  positions of `read_volume_list` are natural numbers, `npos` is `2^64 - 1` and the
  addition `find_last_not_of(..) + 1` is taken modulo `2^64`.
* A step whose C++ behaviour is undefined or throws (a vector write outside the
  bounds, a `resize` to a negative count) returns `none`: the model emits no record
  for it, and "emitted record" always means a result `some r`.
-/

namespace FlattenEdepInfo

/-- Double precision values of the source, as exact rationals. -/
abbrev Double_t := ℚ

/-! ## Input records (the members the program reads) -/

/-- TLorentzVector: components X, Y, Z, T (T is the energy). -/
structure TLorentzVector where
  fX : Double_t
  fY : Double_t
  fZ : Double_t
  fE : Double_t
deriving DecidableEq, Repr

/-- TLorentzVector::operator[]: indices 0..2 are the momentum, 3 is the energy;
any other index reports an error and yields 0. -/
def TLorentzVector.get (v : TLorentzVector) (i : Nat) : Double_t :=
  match i with
  | 0 => v.fX
  | 1 => v.fY
  | 2 => v.fZ
  | 3 => v.fE
  | _ => 0

/-- TG4PrimaryParticle: only `Momentum` is read. -/
structure TG4PrimaryParticle where
  Momentum : TLorentzVector
deriving DecidableEq, Repr

/-- TG4PrimaryVertex: only `Particles` is read. -/
structure TG4PrimaryVertex where
  Particles : List TG4PrimaryParticle
deriving DecidableEq, Repr

/-- TG4HitSegment: the owning-volume name and the value of `GetEnergyDeposit()`. -/
structure TG4HitSegment where
  PVname : String
  EnergyDeposit : Double_t
deriving DecidableEq, Repr

/-- TG4Event: `SegmentDetectors` is a map from detector name to segments, given
here as its entries in iteration order. -/
structure TG4Event where
  Primaries : List TG4PrimaryVertex
  SegmentDetectors : List (String × List TG4HitSegment)
deriving DecidableEq, Repr

/-- One waveform of a DAQ record: channel id, samples, sample period. -/
structure CENNSWaveform where
  chid : Int
  samples : List Double_t
  sample_period : Double_t
deriving DecidableEq, Repr

/-- CENNSDAQ: only `waveforms` is read. -/
structure CENNSDAQ where
  waveforms : List CENNSWaveform
deriving DecidableEq, Repr

/-- What the two `GetEntry(i)` calls leave behind the branch pointers. -/
structure Event where
  tg4_event : Option TG4Event
  cenns_daq_v : Option (List CENNSDAQ)
deriving DecidableEq, Repr

/-! ## The output variables of `main` -/

/-- The variables behind the output branches (lines 158-164). `Fill()` writes
their current values, so an emitted record is a value of this type. -/
structure LoopState where
  event_id : Int
  total_primary_energy : Double_t
  volume_edep : List (String × Double_t)
  channel_integrals : List Double_t
  n_channels : Int
  all_channel_integral : Double_t
deriving DecidableEq, Repr

/-! ## `std::map` and `std::vector` operations used by `main` -/

/-- The statement `volume_edep[k] = v`: the entry is inserted at its place in the
ascending key order, or overwritten when the key is present. -/
def map_assign : List (String × Double_t) → String → Double_t → List (String × Double_t)
  | [], k, v => [(k, v)]
  | (k1, v1) :: rest, k, v =>
    if k < k1 then (k, v) :: (k1, v1) :: rest
    else if k1 < k then (k1, v1) :: map_assign rest k v
    else (k, v) :: rest

/-- The lookup `volume_edep.find(k)`: the value of the entry with key `k`, if any. -/
def map_find : List (String × Double_t) → String → Option Double_t
  | [], _ => none
  | (k1, v1) :: rest, k => if k1 = k then some v1 else map_find rest k

/-- Lines 233-236: `find(k)` followed by `it->second += d` when the key is found. -/
def map_add : List (String × Double_t) → String → Double_t → List (String × Double_t)
  | [], _, _ => []
  | (k1, v1) :: rest, k, d =>
    if k1 = k then (k1, v1 + d) :: rest else (k1, v1) :: map_add rest k d

/-- The call `channel_integrals.resize(n, x)`. A negative `int` converts to a count
above `max_size()`, for which `resize` throws. -/
def resize (v : List Double_t) (n : Int) (x : Double_t) : Option (List Double_t) :=
  if n < 0 then none
  else some (v.take n.toNat ++ List.replicate (n.toNat - v.length) x)

/-! ## The body of the event loop -/

/-- Lines 174-179: the loop that enters every requested volume in `volume_edep`. -/
def create_volume_branches (volume_names : List String) : List (String × Double_t) :=
  volume_names.foldl (fun m vol_name => map_assign m vol_name 0) []

/-- Lines 176-178: the names passed to `output_tree->Branch` by the same loop, one
call per entry of the list, in list order; the branch of `vol_name` is bound to
`&volume_edep[vol_name]`. -/
def volume_branch_names (volume_names : List String) : List String :=
  volume_names.map (fun vol_name => "edep_" ++ vol_name)

/-- The conversion of a `Long64_t` value to the 32-bit `Int_t`: the value of the
range `-2^31 .. 2^31 - 1` that is congruent to `x` modulo `2^32` (`2^31` is
2147483648, `2^32` is 4294967296). -/
def to_Int_t (x : Int) : Int :=
  if 2147483648 ≤ x % 4294967296 then x % 4294967296 - 4294967296 else x % 4294967296

/-- Lines 194-201, "Reset variables". `n_channels` is not touched; line 195 stores
the `Long64_t` loop index in the `Int_t` variable `event_id`. -/
def reset_variables (st : LoopState) (i : Nat) : LoopState :=
  { st with
    event_id := to_Int_t (i : Int)
    total_primary_energy := 0
    volume_edep := st.volume_edep.map (fun kv => (kv.1, 0))
    channel_integrals := []
    all_channel_integral := 0 }

/-- Lines 204-211: add `Momentum[3]` of every particle of every primary vertex. -/
def extract_primary (st : LoopState) : Option TG4Event → LoopState
  | none => st
  | some ev =>
    { st with
      total_primary_energy :=
        ev.Primaries.foldl
          (fun e primary_vertex =>
            primary_vertex.Particles.foldl (fun e1 particle => e1 + particle.Momentum.get 3) e)
          st.total_primary_energy }

/-- Lines 214-239: for every segment of every segment detector, add its energy
deposit to the entry of its `PVname`, when there is one. -/
def extract_volumes (volume_names : List String) (st : LoopState) :
    Option TG4Event → LoopState
  | none => st
  | some ev =>
    if volume_names.isEmpty then st
    else
      { st with
        volume_edep :=
          ev.SegmentDetectors.foldl
            (fun m det =>
              det.2.foldl (fun m1 segment => map_add m1 segment.PVname segment.EnergyDeposit) m)
            st.volume_edep }

/-- Lines 255-263: the sum of the samples times the sample period, 0 for a
waveform without samples. -/
def waveform_integral (wfm : CENNSWaveform) : Double_t :=
  if wfm.samples.length > 0 then
    wfm.samples.foldl (fun integral sample => integral + sample) 0 * wfm.sample_period
  else 0

/-- Lines 264-267: the growth step taken when `chid >= n_channels`. -/
def grow_to_chid (st : LoopState) (chid : Int) : Option LoopState :=
  if chid ≥ st.n_channels then
    (resize st.channel_integrals chid 0).map
      (fun v => { st with n_channels := chid, channel_integrals := v })
  else some st

/-- Lines 268-269: `channel_integrals[chid] = integral` and
`all_channel_integral += integral`, for an index inside the vector. -/
def store_integral (st : LoopState) (chid : Int) (integral : Double_t) : LoopState :=
  { st with
    channel_integrals := st.channel_integrals.set chid.toNat integral
    all_channel_integral := st.all_channel_integral + integral }

/-- Lines 254-269: one waveform. The write `channel_integrals[chid] = integral` has
a defined behaviour only for `0 <= chid < channel_integrals.size()`. -/
def process_waveform (st : LoopState) (wfm : CENNSWaveform) : Option LoopState :=
  (grow_to_chid st wfm.chid).bind fun st1 =>
    if 0 ≤ wfm.chid ∧ wfm.chid.toNat < st1.channel_integrals.length then
      some (store_integral st1 wfm.chid (waveform_integral wfm))
    else none

/-- Lines 248-251: the growth step at the head of a DAQ record. -/
def grow_to_nwaveforms (st : LoopState) (nwaveforms : Int) : Option LoopState :=
  let n := if nwaveforms > st.n_channels then nwaveforms else st.n_channels
  (resize st.channel_integrals n 0).map
    (fun v => { st with n_channels := n, channel_integrals := v })

/-- Lines 245-270: one DAQ record. -/
def process_daqdata (st : LoopState) (daqdata : CENNSDAQ) : Option LoopState :=
  (grow_to_nwaveforms st (daqdata.waveforms.length : Int)).bind fun st1 =>
    daqdata.waveforms.foldlM process_waveform st1

/-- Lines 242-275: all DAQ records when the pointer is set, `n_channels = 0` when
it is null. -/
def extract_channels (st : LoopState) : Option (List CENNSDAQ) → Option LoopState
  | some daq_v => daq_v.foldlM process_daqdata st
  | none => some { st with n_channels := 0 }

/-- Lines 194-239: the reset and the two truth blocks; the state in which the
channel block starts. -/
def truth_state (volume_names : List String) (st : LoopState) (i : Nat)
    (tg4 : Option TG4Event) : LoopState :=
  extract_volumes volume_names (extract_primary (reset_variables st i) tg4) tg4

/-- Lines 194-278: one iteration of the event loop; the result is the record that
`Fill()` emits, which is also the state the next iteration starts from. -/
def process_event (volume_names : List String) (st : LoopState) (i : Nat) (ev : Event) :
    Option LoopState :=
  extract_channels (truth_state volume_names st i ev.tg4_event) ev.cenns_daq_v

/-- Lines 182-279: the event loop from index `i` on; the emitted records in order. -/
def event_loop (volume_names : List String) :
    LoopState → Nat → List Event → Option (List LoopState)
  | _, _, [] => some []
  | st, i, ev :: rest =>
    (process_event volume_names st i ev).bind fun st1 =>
      (event_loop volume_names st1 (i + 1) rest).map fun recs => st1 :: recs

/-- Lines 158-179: the output variables before the first event. `event_id`,
`total_primary_energy` and `n_channels` are declared without an initial value:
whatever they hold is a parameter. -/
def initial_state (volume_names : List String) (event_id0 : Int)
    (total_primary_energy0 : Double_t) (n_channels0 : Int) : LoopState :=
  { event_id := event_id0
    total_primary_energy := total_primary_energy0
    volume_edep := create_volume_branches volume_names
    channel_integrals := []
    n_channels := n_channels0
    all_channel_integral := 0 }

/-- Lines 137-145 and 191-192: entry `i` of both trees, for `i` below the smaller
of the two entry counts. -/
def get_entries (cenns_tree : List (Option (List CENNSDAQ)))
    (edepsim_tree : List (Option TG4Event)) : List Event :=
  List.zipWith (fun daq tg4 => { tg4_event := tg4, cenns_daq_v := daq }) cenns_tree edepsim_tree

/-- The run of `main` from the opened trees on: the records written to the
output tree. -/
def main_records (volume_names : List String) (cenns_tree : List (Option (List CENNSDAQ)))
    (edepsim_tree : List (Option TG4Event)) (event_id0 : Int)
    (total_primary_energy0 : Double_t) (n_channels0 : Int) : Option (List LoopState) :=
  event_loop volume_names
    (initial_state volume_names event_id0 total_primary_energy0 n_channels0) 0
    (get_entries cenns_tree edepsim_tree)


/-! ## The entry counts (lines 136-146) -/

/-- Lines 140-143: whether the warning on different entry counts is written. -/
def count_mismatch_warning (n_cenns_entries n_edep_entries : Nat) : Bool :=
  n_cenns_entries != n_edep_entries

/-- Line 145: the number of iterations of the event loop. -/
def n_entries (n_cenns_entries n_edep_entries : Nat) : Nat :=
  min n_cenns_entries n_edep_entries

/-! ## `read_volume_list` (lines 35-66)

A `std::string` is the list of its characters; `size_t` values are natural numbers
below `2^64`, and the one addition of the source on them is taken modulo `2^64`. -/

/-- The value std::string::npos, the largest `size_t`. -/
def npos : Nat := 2 ^ 64 - 1

/-- The character set " \t\r\n" of lines 52 and 53. -/
def whitespace_chars : List Char := [' ', '\t', '\r', '\n']

/-- The position, counted from `pos`, of the first character that is not in `chars`. -/
def first_not_of (chars : List Char) : List Char → Nat → Option Nat
  | [], _ => none
  | c :: rest, pos => if c ∈ chars then first_not_of chars rest (pos + 1) else some pos

/-- The position, counted from `pos`, of the last character that is not in `chars`. -/
def last_not_of (chars : List Char) : List Char → Nat → Option Nat
  | [], _ => none
  | c :: rest, pos =>
    match last_not_of chars rest (pos + 1) with
    | some q => some q
    | none => if c ∈ chars then none else some pos

/-- The call `line.find_first_not_of(chars)`: `npos` when every character is in
`chars`. -/
def find_first_not_of (line : List Char) (chars : List Char) : Nat :=
  (first_not_of chars line 0).getD npos

/-- The call `line.find_last_not_of(chars)`: `npos` when every character is in
`chars`. -/
def find_last_not_of (line : List Char) (chars : List Char) : Nat :=
  (last_not_of chars line 0).getD npos

/-- The call `line.erase(index, count)`: removes `min(count, size - index)`
characters from `index` on; throws std::out_of_range for `index > size`. -/
def erase (line : List Char) (index count : Nat) : Option (List Char) :=
  if index > line.length then none
  else some (line.take index ++ line.drop (index + min count (line.length - index)))

/-- Lines 49-61: the body of the `while` loop for one line read by `getline`. -/
def read_line (volumes : List String) (line : String) : Option (List String) :=
  (erase line.data 0 (find_first_not_of line.data whitespace_chars)).bind fun l1 =>
    (erase l1 ((find_last_not_of l1 whitespace_chars + 1) % 2 ^ 64) npos).bind fun l2 =>
      if l2.isEmpty || l2.head? == some '#' then some volumes
      else some (volumes ++ [String.mk l2])

/-- `read_volume_list` for a file given as the lines `getline` reads from it, or
`none` when the file cannot be opened (then the list is empty). The result is
`none` when an exception leaves the function. -/
def read_volume_list (file : Option (List String)) : Option (List String) :=
  match file with
  | none => some []
  | some lines => lines.foldlM read_line []

/-! ## Vocabulary of the statements -/

/-- The fields written by the truth block of the loop body. -/
def truth_fields (st : LoopState) : Int × Double_t × List (String × Double_t) :=
  (st.event_id, st.total_primary_energy, st.volume_edep)

/-- All segments of a truth record, over all segment detectors. -/
def all_segments (ev : TG4Event) : List TG4HitSegment :=
  (ev.SegmentDetectors.map Prod.snd).flatten

/-- The sum of the energy deposits of the segments whose `PVname` is `v`. -/
def deposit_sum (v : String) (segs : List TG4HitSegment) : Double_t :=
  ((segs.filter (fun s => s.PVname = v)).map (fun s => s.EnergyDeposit)).sum

/-- The sum of the energy components of all particles of all primary vertices. -/
def primary_energy_sum (ev : TG4Event) : Double_t :=
  (ev.Primaries.map (fun primary_vertex =>
    (primary_vertex.Particles.map (fun particle => particle.Momentum.get 3)).sum)).sum

/-- The keys of a map in iteration order. -/
def map_keys (m : List (String × Double_t)) : List String := m.map Prod.fst

/-- The names of a list with later duplicates removed, first occurrences kept in
their order (the order C5 speaks of). -/
def first_seen : List String → List String
  | [] => []
  | a :: l => a :: (first_seen l).filter (fun b => b ≠ a)

/-- The channel ids of all waveforms of an event, in processing order. -/
def event_chids (daq : Option (List CENNSDAQ)) : List Int :=
  match daq with
  | none => []
  | some daq_v => ((daq_v.map (fun daqdata => daqdata.waveforms)).flatten).map (fun wfm => wfm.chid)

/-- The number of DAQ records of an event (0 also when the pointer is null). -/
def daq_record_count (ev : Event) : Nat :=
  match ev.cenns_daq_v with
  | none => 0
  | some daq_v => daq_v.length

/-- The state in which iteration `j` of a run starts: the initial state for the
first event, the record emitted for the preceding event otherwise. -/
def state_before (st : LoopState) (recs : List LoopState) : Nat → LoopState
  | 0 => st
  | j + 1 => recs.getD j st

/-- The stores of a list of waveforms, one after the other (all indices valid). -/
def store_waveforms (st : LoopState) (ws : List CENNSWaveform) : LoopState :=
  ws.foldl (fun s wfm => store_integral s wfm.chid (waveform_integral wfm)) st

/-- The state after the growth step at the head of a DAQ record with `k` waveforms,
for a vector that is not longer than `n_channels`. -/
def grown (st : LoopState) (k : Nat) : LoopState :=
  { st with
    n_channels := max st.n_channels (k : Int)
    channel_integrals :=
      st.channel_integrals ++
        List.replicate ((max st.n_channels (k : Int)).toNat - st.channel_integrals.length) 0 }

/-- Every slot of `channel_integrals` whose index is not in `seen` holds 0. -/
def zero_outside (st : LoopState) (seen : List Int) : Prop :=
  ∀ (j : Nat) (x : Double_t), st.channel_integrals[j]? = some x → (j : Int) ∉ seen → x = 0

/-- All waveforms of an event in processing order: record after record, and the
waveforms of a record in their order. -/
def all_waveforms (daq : Option (List CENNSDAQ)) : List CENNSWaveform :=
  match daq with
  | none => []
  | some daq_v => (daq_v.map (fun daqdata => daqdata.waveforms)).flatten

/-- The integral of the last waveform of the list that carries the channel id `j`,
if there is one. -/
def last_integral : List CENNSWaveform → Nat → Option Double_t
  | [], _ => none
  | wfm :: rest, j =>
    match last_integral rest j with
    | some v => some v
    | none => if wfm.chid = (j : Int) then some (waveform_integral wfm) else none

/-- Every channel that a waveform of `done` wrote holds the integral of the last of
these waveforms. -/
def holds_last (st : LoopState) (done : List CENNSWaveform) : Prop :=
  ∀ (j : Nat) (v : Double_t), last_integral done j = some v → st.channel_integrals[j]? = some v

/-- Every channel id of the event is non-negative and below the waveform count of
its DAQ record: a condition under which no store can leave the vector. -/
def chids_below_count (daq : Option (List CENNSDAQ)) : Bool :=
  match daq with
  | none => true
  | some daq_v =>
    daq_v.all fun daqdata =>
      daqdata.waveforms.all fun wfm =>
        decide (0 ≤ wfm.chid ∧ wfm.chid < (daqdata.waveforms.length : Int))

/-- A space, a tab, a carriage return or a newline. -/
def is_blank (c : Char) : Bool :=
  c == ' ' || c == '\t' || c == '\r' || c == '\n'

/-- The line without its leading and trailing blanks. -/
def trimmed (line : String) : String :=
  String.mk ((line.data.dropWhile is_blank).rdropWhile is_blank)

/-- A trimmed line is kept when it is not empty and does not start with '#'. -/
def kept (name : String) : Bool :=
  !name.data.isEmpty && name.data.head? != some '#'

/-! ## Scenario inputs -/

/-- A particle with zero momentum components and energy `e`. -/
def particle_with_energy (e : Double_t) : TG4PrimaryParticle :=
  { Momentum := { fX := 0, fY := 0, fZ := 0, fE := e } }

/-- A truth record: two vertices with particle energies [2.0] and [3.5, 1.5]; one
detector with a segment in "LArVol" (0.42) and one in "Other" (1.0). -/
def scenario_truth : TG4Event :=
  { Primaries :=
      [ { Particles := [particle_with_energy 2] },
        { Particles := [particle_with_energy (7 / 2), particle_with_energy (3 / 2)] } ]
    SegmentDetectors :=
      [ ("det", [ { PVname := "LArVol", EnergyDeposit := 21 / 50 },
                  { PVname := "Other", EnergyDeposit := 1 } ]) ] }

/-- A truth record without primary vertices and without segment detectors. -/
def empty_truth : TG4Event :=
  { Primaries := [], SegmentDetectors := [] }

/-- A waveform with samples [1, 1, 1] and sample period 2 on channel `chid`. -/
def scenario_waveform (chid : Int) : CENNSWaveform :=
  { chid := chid, samples := [1, 1, 1], sample_period := 2 }

/-- A waveform with the single sample 1 and sample period 1 on channel `chid`. -/
def unit_waveform (chid : Int) : CENNSWaveform :=
  { chid := chid, samples := [1], sample_period := 1 }

/-- A tree of two entries: one DAQ record with unit waveforms on the channels
0, 1, 2, then a DAQ list without records. -/
def cenns_tree_then_empty : List (Option (List CENNSDAQ)) :=
  [some [⟨[unit_waveform 0, unit_waveform 1, unit_waveform 2]⟩], some []]

/-- A loop state holding leftovers of an earlier event. -/
def scenario_state (n_channels : Int) : LoopState :=
  { event_id := 41
    total_primary_energy := 9
    volume_edep := [("LArVol", 5)]
    channel_integrals := [4, 4]
    n_channels := n_channels
    all_channel_integral := 8 }

/-- The state before the first event when nothing is requested and the variables
without initial value hold 0. -/
def zero_state : LoopState := initial_state [] 0 0 0

/-! ## Scenario records -/

/-- The record emitted for `scenario_truth` at index 3 with the volume list
{"LArVol"} and a null DAQ pointer. -/
def scenario_truth_record : LoopState :=
  { event_id := 3
    total_primary_energy := 7
    volume_edep := [("LArVol", 21 / 50)]
    channel_integrals := []
    n_channels := 0
    all_channel_integral := 0 }

/-- The record emitted for one DAQ record with three scenario waveforms on the
channels 0, 1, 2, from a state whose `n_channels` is 2. -/
def scenario_channels_record : LoopState :=
  { event_id := 0
    total_primary_energy := 0
    volume_edep := [("LArVol", 0)]
    channel_integrals := [6, 6, 6]
    n_channels := 3
    all_channel_integral := 18 }

/-- The record emitted from `zero_state` for two DAQ records that each hold one
unit waveform on channel 0. -/
def shared_chid_record : LoopState :=
  { event_id := 0
    total_primary_energy := 0
    volume_edep := []
    channel_integrals := [1]
    n_channels := 1
    all_channel_integral := 2 }

/-- The record emitted from the initial state for the volume list ["b", "a", "b"]
and an event with an empty truth record and an empty DAQ list. -/
def two_volume_record : LoopState :=
  { event_id := 0
    total_primary_energy := 0
    volume_edep := [("a", 0), ("b", 0)]
    channel_integrals := []
    n_channels := 0
    all_channel_integral := 0 }

/-- The first record of the run over `cenns_tree_then_empty`. -/
def three_channel_record : LoopState :=
  { event_id := 0
    total_primary_energy := 7
    volume_edep := []
    channel_integrals := [1, 1, 1]
    n_channels := 3
    all_channel_integral := 3 }

/-- The second record of the run over `cenns_tree_then_empty`: the event whose
DAQ list has no records. -/
def empty_daq_record : LoopState :=
  { event_id := 1
    total_primary_energy := 7
    volume_edep := []
    channel_integrals := []
    n_channels := 3
    all_channel_integral := 0 }

/-- The record of one unit waveform on channel 0 when `n_channels` held 0 before
the first event. -/
def one_channel_record : LoopState :=
  { event_id := 0
    total_primary_energy := 0
    volume_edep := []
    channel_integrals := [1]
    n_channels := 1
    all_channel_integral := 1 }

/-- The record of the same event when `n_channels` held 5 before the first event. -/
def five_channel_record : LoopState :=
  { event_id := 0
    total_primary_energy := 0
    volume_edep := []
    channel_integrals := [1, 0, 0, 0, 0]
    n_channels := 5
    all_channel_integral := 1 }

/-! ## Scenario inputs and records of the later claims -/

/-- A waveform with one sample and sample period 1 on channel `chid`: its integral
is the sample. -/
def flat_waveform (chid : Int) (sample : Double_t) : CENNSWaveform :=
  { chid := chid, samples := [sample], sample_period := 1 }

/-- The state after the growth step at the head of a DAQ record with one waveform,
reached from `zero_state` and an empty truth record. -/
def one_slot_state : LoopState :=
  { event_id := 0
    total_primary_energy := 0
    volume_edep := []
    channel_integrals := [0]
    n_channels := 1
    all_channel_integral := 0 }

/-- The record emitted for the three scenario waveforms on the channels 0, 1, 2
from a state with leftovers and `n_channels` 5. -/
def padded_channels_record : LoopState :=
  { event_id := 0
    total_primary_energy := 0
    volume_edep := [("LArVol", 0)]
    channel_integrals := [6, 6, 6, 0, 0]
    n_channels := 5
    all_channel_integral := 18 }

/-- Two DAQ records: integral 7 on channel 0, then integrals 2 and 3 on channel 1. -/
def overwriting_daq : List CENNSDAQ :=
  [⟨[flat_waveform 0 7]⟩, ⟨[flat_waveform 1 2, flat_waveform 1 3]⟩]

/-- The record emitted from `zero_state` for `overwriting_daq`. -/
def overwritten_record : LoopState :=
  { event_id := 0
    total_primary_energy := 0
    volume_edep := []
    channel_integrals := [7, 3]
    n_channels := 2
    all_channel_integral := 12 }

/-- A truth tree of three entries, one more than `cenns_tree_then_empty` has. -/
def edepsim_tree_of_three : List (Option TG4Event) :=
  [some scenario_truth, some scenario_truth, some empty_truth]

/-- The record emitted from `zero_state` at the index `2^31` (2147483648) for an
empty truth record and a DAQ list without records: `event_id` holds `-2^31`. -/
def wrapped_index_record : LoopState :=
  { event_id := -2147483648
    total_primary_energy := 0
    volume_edep := []
    channel_integrals := []
    n_channels := 0
    all_channel_integral := 0 }

/-- The lines of a volumes file as in the usage text, with blanks around the names
and a line of blanks only. -/
def scenario_volume_lines : List String :=
  ["LArVol", "  volCryostat\t\r", " \t ", "", "# Comments starting with # are ignored",
   "volPanel # front"]

/-! ## Helper lemmas: the conversion to `Int_t` -/

theorem to_Int_t_eq (x : Int) :
    to_Int_t x =
      if 2147483648 ≤ x % 4294967296 then x % 4294967296 - 4294967296 else x % 4294967296 := by
  unfold to_Int_t
  rfl

/-- The result is in the range of `Int_t` and differs from the argument by a
multiple of `2^32`. -/
theorem to_Int_t_range (x : Int) :
    -2147483648 ≤ to_Int_t x ∧ to_Int_t x < 2147483648 ∧
    (to_Int_t x - x) % 4294967296 = 0 := by
  rw [to_Int_t_eq]
  split_ifs <;> omega

/-- Below `2^31` the conversion keeps the index. -/
theorem to_Int_t_of_lt (i : Nat) (h : i < 2147483648) : to_Int_t (i : Int) = (i : Int) := by
  rw [to_Int_t_eq, Int.emod_eq_of_lt (by omega) (by omega), if_neg (by omega)]

@[simp]
theorem to_Int_t_zero : to_Int_t 0 = 0 := by
  rw [to_Int_t_eq]
  norm_num

@[simp]
theorem to_Int_t_one : to_Int_t 1 = 1 := by
  rw [to_Int_t_eq]
  norm_num

@[simp]
theorem to_Int_t_three : to_Int_t 3 = 3 := by
  rw [to_Int_t_eq]
  norm_num

/-- The first index that `Int_t` cannot hold, `2^31`, becomes `-2^31`. -/
theorem to_Int_t_wraps : to_Int_t 2147483648 = -2147483648 := by
  rw [to_Int_t_eq]
  norm_num

/-! ## Helper lemmas: folds in `Option` -/

theorem foldlM_some_nil {σ α : Type} (f : σ → α → Option σ) (s s1 : σ) :
    List.foldlM f s [] = some s1 ↔ s1 = s := by
  simp [List.foldlM, pure, eq_comm]

theorem foldlM_some_cons {σ α : Type} (f : σ → α → Option σ) (a : α) (l : List α)
    (s s1 : σ) :
    List.foldlM f s (a :: l) = some s1 ↔
      ∃ s2, f s a = some s2 ∧ List.foldlM f s2 l = some s1 := by
  simp [List.foldlM_cons, bind, Option.bind_eq_some]

/-- A property kept by every successful step is kept by a successful fold. -/
theorem foldlM_invariant {σ α : Type} (f : σ → α → Option σ) (P : σ → Prop)
    (hf : ∀ s a s1, f s a = some s1 → P s → P s1) :
    ∀ (l : List α) (s s1 : σ), List.foldlM f s l = some s1 → P s → P s1 := by
  intro l
  induction l with
  | nil =>
    intro s s1 h hP
    rw [foldlM_some_nil] at h
    subst h
    exact hP
  | cons a l ih =>
    intro s s1 h hP
    rw [foldlM_some_cons] at h
    obtain ⟨s2, h2, h3⟩ := h
    exact ih s2 s1 h3 (hf s a s2 h2 hP)

/-! ## Helper lemmas: the map -/

theorem map_add_keys (m : List (String × Double_t)) (k : String) (d : Double_t) :
    (map_add m k d).map Prod.fst = m.map Prod.fst := by
  induction m with
  | nil => rfl
  | cons kv rest ih =>
    obtain ⟨k1, v1⟩ := kv
    by_cases h : k1 = k
    · simp [map_add, h]
    · simp [map_add, h, ih]

theorem map_find_map_add (m : List (String × Double_t)) (k v : String) (d : Double_t) :
    map_find (map_add m k d) v =
      (map_find m v).map (fun x => if k = v then x + d else x) := by
  induction m with
  | nil => rfl
  | cons kv rest ih =>
    obtain ⟨k1, v1⟩ := kv
    by_cases h : k1 = k
    · subst h
      by_cases hv : k1 = v
      · simp [map_add, map_find, hv]
      · simp [map_add, map_find, hv]
    · by_cases hv : k1 = v
      · subst hv
        simp [map_add, map_find, h, Ne.symm h]
      · simp [map_add, map_find, h, hv, ih]

theorem map_find_reset (m : List (String × Double_t)) (v : String) :
    map_find (m.map (fun kv => (kv.1, (0 : Double_t)))) v = (map_find m v).map (fun _ => 0) := by
  induction m with
  | nil => rfl
  | cons kv rest ih =>
    obtain ⟨k1, v1⟩ := kv
    by_cases hv : k1 = v
    · simp [map_find, hv]
    · simp [map_find, hv, ih]

theorem map_find_isSome (m : List (String × Double_t)) (v : String) :
    (map_find m v).isSome = true ↔ v ∈ m.map Prod.fst := by
  induction m with
  | nil => simp [map_find]
  | cons kv rest ih =>
    obtain ⟨k1, v1⟩ := kv
    by_cases hv : k1 = v
    · simp [map_find, hv]
    · simp only [map_find, hv, if_false, ih, List.map_cons, List.mem_cons]
      constructor
      · intro h; exact Or.inr h
      · rintro (h | h)
        · exact absurd h.symm hv
        · exact h

theorem map_assign_keys_mem (m : List (String × Double_t)) (k : String) (x : Double_t)
    (v : String) : v ∈ (map_assign m k x).map Prod.fst ↔ v = k ∨ v ∈ m.map Prod.fst := by
  induction m with
  | nil => simp [map_assign]
  | cons kv rest ih =>
    obtain ⟨k1, v1⟩ := kv
    by_cases h1 : k < k1
    · simp [map_assign, h1]
    · by_cases h2 : k1 < k
      · simp only [map_assign, h1, h2, if_false, if_true, List.map_cons, List.mem_cons, ih]
        tauto
      · have hk : k1 = k := le_antisymm (not_lt.mp h1) (not_lt.mp h2)
        subst hk
        simp [map_assign, h1]

theorem create_volume_branches_keys_mem (volume_names : List String) (v : String) :
    v ∈ (create_volume_branches volume_names).map Prod.fst ↔ v ∈ volume_names := by
  have key : ∀ (l : List String) (m : List (String × Double_t)),
      v ∈ (l.foldl (fun m vol_name => map_assign m vol_name 0) m).map Prod.fst ↔
        v ∈ l ∨ v ∈ m.map Prod.fst := by
    intro l
    induction l with
    | nil => intro m; simp
    | cons a l ih =>
      intro m
      rw [List.foldl_cons, ih, map_assign_keys_mem, List.mem_cons]
      tauto
  simpa [create_volume_branches] using key volume_names []
/-! ## Helper lemmas: the channel block leaves the truth fields alone -/

theorem grow_to_chid_truth_fields (st st1 : LoopState) (chid : Int)
    (h : grow_to_chid st chid = some st1) : truth_fields st1 = truth_fields st := by
  unfold grow_to_chid at h
  split_ifs at h with hc
  · rw [Option.map_eq_some'] at h
    obtain ⟨v, -, rfl⟩ := h
    rfl
  · cases h
    rfl

theorem process_waveform_truth_fields (st st1 : LoopState) (wfm : CENNSWaveform)
    (h : process_waveform st wfm = some st1) : truth_fields st1 = truth_fields st := by
  unfold process_waveform at h
  rw [Option.bind_eq_some] at h
  obtain ⟨s, hs, h2⟩ := h
  split_ifs at h2
  cases h2
  rw [← grow_to_chid_truth_fields st s wfm.chid hs]
  rfl

theorem process_daqdata_truth_fields (st st1 : LoopState) (daqdata : CENNSDAQ)
    (h : process_daqdata st daqdata = some st1) : truth_fields st1 = truth_fields st := by
  unfold process_daqdata at h
  rw [Option.bind_eq_some] at h
  obtain ⟨s, hs, h2⟩ := h
  have h3 := foldlM_invariant process_waveform (fun x => truth_fields x = truth_fields s)
    (fun a w b hab ha => (process_waveform_truth_fields a b w hab).trans ha)
    daqdata.waveforms s st1 h2 rfl
  rw [h3]
  unfold grow_to_nwaveforms at hs
  rw [Option.map_eq_some'] at hs
  obtain ⟨v, -, rfl⟩ := hs
  rfl

theorem extract_channels_truth_fields (st st1 : LoopState) (daq : Option (List CENNSDAQ))
    (h : extract_channels st daq = some st1) : truth_fields st1 = truth_fields st := by
  cases daq with
  | none =>
    simp only [extract_channels, Option.some.injEq] at h
    subst h
    rfl
  | some daq_v =>
    exact foldlM_invariant process_daqdata (fun x => truth_fields x = truth_fields st)
      (fun a d b hab ha => (process_daqdata_truth_fields a b d hab).trans ha)
      daq_v st st1 h rfl

/-! ## Helper lemmas: the truth block -/

theorem deposit_sum_nil (v : String) : deposit_sum v [] = 0 := rfl

theorem deposit_sum_cons (v : String) (s : TG4HitSegment) (segs : List TG4HitSegment) :
    deposit_sum v (s :: segs) =
      (if s.PVname = v then s.EnergyDeposit else 0) + deposit_sum v segs := by
  by_cases h : s.PVname = v <;> simp [deposit_sum, List.filter_cons, h]

theorem deposit_sum_append (v : String) (a b : List TG4HitSegment) :
    deposit_sum v (a ++ b) = deposit_sum v a + deposit_sum v b := by
  simp [deposit_sum, List.filter_append]

theorem map_find_fold_segments (v : String) (segs : List TG4HitSegment) :
    ∀ m : List (String × Double_t),
      map_find (segs.foldl (fun m1 segment => map_add m1 segment.PVname segment.EnergyDeposit) m) v
        = (map_find m v).map (fun x => x + deposit_sum v segs) := by
  induction segs with
  | nil => intro m; simp [deposit_sum_nil]
  | cons s segs ih =>
    intro m
    rw [List.foldl_cons, ih, map_find_map_add, Option.map_map, deposit_sum_cons]
    congr 1
    funext x
    by_cases h : s.PVname = v <;> simp [h, add_assoc]

theorem map_find_fold_detectors (v : String) (dets : List (String × List TG4HitSegment)) :
    ∀ m : List (String × Double_t),
      map_find (dets.foldl (fun m det =>
          det.2.foldl (fun m1 segment => map_add m1 segment.PVname segment.EnergyDeposit) m) m) v
        = (map_find m v).map (fun x => x + deposit_sum v (dets.map Prod.snd).flatten) := by
  induction dets with
  | nil => intro m; simp [deposit_sum_nil]
  | cons d dets ih =>
    intro m
    rw [List.foldl_cons, ih, map_find_fold_segments, Option.map_map, List.map_cons,
      List.flatten_cons, deposit_sum_append]
    congr 1
    funext x
    simp [add_assoc]

theorem fold_detectors_keys (dets : List (String × List TG4HitSegment)) :
    ∀ m : List (String × Double_t),
      (dets.foldl (fun m det =>
          det.2.foldl (fun m1 segment => map_add m1 segment.PVname segment.EnergyDeposit) m) m).map
        Prod.fst = m.map Prod.fst := by
  have inner : ∀ (segs : List TG4HitSegment) (m : List (String × Double_t)),
      (segs.foldl (fun m1 segment => map_add m1 segment.PVname segment.EnergyDeposit) m).map
        Prod.fst = m.map Prod.fst := by
    intro segs
    induction segs with
    | nil => intro m; rfl
    | cons s segs ih => intro m; rw [List.foldl_cons, ih, map_add_keys]
  induction dets with
  | nil => intro m; rfl
  | cons d dets ih => intro m; rw [List.foldl_cons, ih, inner]

theorem fold_particles (ps : List TG4PrimaryParticle) :
    ∀ e : Double_t, ps.foldl (fun e1 particle => e1 + particle.Momentum.get 3) e
      = e + (ps.map (fun particle => particle.Momentum.get 3)).sum := by
  induction ps with
  | nil => intro e; simp
  | cons p ps ih => intro e; rw [List.foldl_cons, ih]; simp [add_assoc]

theorem fold_vertices (vs : List TG4PrimaryVertex) :
    ∀ e : Double_t,
      vs.foldl (fun e primary_vertex =>
          primary_vertex.Particles.foldl (fun e1 particle => e1 + particle.Momentum.get 3) e) e
        = e + (vs.map (fun primary_vertex =>
            (primary_vertex.Particles.map (fun particle => particle.Momentum.get 3)).sum)).sum := by
  induction vs with
  | nil => intro e; simp
  | cons p ps ih => intro e; rw [List.foldl_cons, ih, fold_particles]; simp [add_assoc]
theorem fold_detectors_flatten (dets : List (String × List TG4HitSegment)) :
    ∀ m : List (String × Double_t),
      dets.foldl (fun m det =>
          det.2.foldl (fun m1 segment => map_add m1 segment.PVname segment.EnergyDeposit) m) m
        = (dets.map Prod.snd).flatten.foldl
            (fun m1 segment => map_add m1 segment.PVname segment.EnergyDeposit) m := by
  induction dets with
  | nil => intro m; rfl
  | cons d dets ih =>
    intro m
    rw [List.foldl_cons, ih, List.map_cons, List.flatten_cons, List.foldl_append]

theorem process_event_truth_fields (volume_names : List String) (st r : LoopState) (i : Nat)
    (ev : Event) (hr : process_event volume_names st i ev = some r) :
    truth_fields r =
      truth_fields (extract_volumes volume_names
        (extract_primary (reset_variables st i) ev.tg4_event) ev.tg4_event) :=
  extract_channels_truth_fields _ r ev.cenns_daq_v hr

theorem process_event_volume_edep (volume_names : List String) (st r : LoopState) (i : Nat)
    (tg4 : TG4Event) (daq : Option (List CENNSDAQ)) (hne : volume_names ≠ [])
    (hr : process_event volume_names st i ⟨some tg4, daq⟩ = some r) :
    r.volume_edep =
      (all_segments tg4).foldl
        (fun m1 segment => map_add m1 segment.PVname segment.EnergyDeposit)
        (st.volume_edep.map (fun kv => (kv.1, (0 : Double_t)))) := by
  have h := process_event_truth_fields volume_names st r i _ hr
  have h2 : r.volume_edep = (extract_volumes volume_names
        (extract_primary (reset_variables st i) (some tg4)) (some tg4)).volume_edep :=
    congrArg (fun t => t.2.2) h
  rw [h2]
  have hemp : volume_names.isEmpty = false := by
    cases volume_names with
    | nil => exact absurd rfl hne
    | cons a l => rfl
  simp only [extract_volumes, hemp, extract_primary, reset_variables, all_segments,
    fold_detectors_flatten]
  rfl

/-- C1: for an event with a truth record and a non-empty volume list, processed from
a loop state of a run with that list (its map has the keys entered by the branch
loop), the value emitted for a listed name `v` is the sum of the energy deposits of
exactly the segments (over all segment detectors) whose `PVname` equals `v`; a name
outside the list has no value; and the values depend on the segments only, not on
the detector names or grouping. -/
theorem C1_volume_value_is_sum_of_matching_segments (volume_names : List String)
    (st : LoopState) (i : Nat) (tg4 : TG4Event) (daq : Option (List CENNSDAQ)) (r : LoopState)
    (hne : volume_names ≠ [])
    (hkeys : map_keys st.volume_edep = map_keys (create_volume_branches volume_names))
    (hr : process_event volume_names st i ⟨some tg4, daq⟩ = some r) :
    (∀ v ∈ volume_names,
        map_find r.volume_edep v = some (deposit_sum v (all_segments tg4))) ∧
    (∀ v, v ∉ volume_names → map_find r.volume_edep v = none) ∧
    (∀ (tg4b : TG4Event) (rb : LoopState), all_segments tg4b = all_segments tg4 →
        process_event volume_names st i ⟨some tg4b, daq⟩ = some rb →
        rb.volume_edep = r.volume_edep) := by
  have hv := process_event_volume_edep volume_names st r i tg4 daq hne hr
  have hk0 : st.volume_edep.map Prod.fst
      = (create_volume_branches volume_names).map Prod.fst := hkeys
  have hfind : ∀ v, map_find r.volume_edep v =
      (map_find st.volume_edep v).map (fun _ => deposit_sum v (all_segments tg4)) := by
    intro v
    rw [hv, map_find_fold_segments, map_find_reset, Option.map_map]
    congr 1
    funext x
    simp
  refine ⟨?_, ?_, ?_⟩
  · intro v hmem
    have hin : v ∈ st.volume_edep.map Prod.fst := by
      rw [hk0, create_volume_branches_keys_mem]; exact hmem
    rw [← map_find_isSome, Option.isSome_iff_exists] at hin
    obtain ⟨x, hx⟩ := hin
    rw [hfind, hx]
    rfl
  · intro v hnot
    have hout : ¬ v ∈ st.volume_edep.map Prod.fst := by
      rw [hk0, create_volume_branches_keys_mem]; exact hnot
    rw [← map_find_isSome] at hout
    rw [hfind]
    cases hm : map_find st.volume_edep v with
    | none => rfl
    | some x => rw [hm] at hout; exact absurd rfl hout
  · intro tg4b rb hseg hrb
    rw [hv, process_event_volume_edep volume_names st rb i tg4b daq hne hrb, hseg]

/-- The scenario of C1: volume list {"LArVol"}, segments "LArVol" 0.42 and "Other"
1.0 give the value 0.42 for "LArVol" and no value for "Other". -/
theorem C1_volume_value_scenario :
    process_event ["LArVol"] (scenario_state 6) 3 ⟨some scenario_truth, none⟩
      = some scenario_truth_record ∧
    map_find scenario_truth_record.volume_edep "LArVol"
      = some (deposit_sum "LArVol" (all_segments scenario_truth)) ∧
    deposit_sum "LArVol" (all_segments scenario_truth) = 21 / 50 ∧
    map_find scenario_truth_record.volume_edep "Other" = none := by
  have hr : process_event ["LArVol"] (scenario_state 6) 3 ⟨some scenario_truth, none⟩
      = some scenario_truth_record := by
    simp [process_event, truth_state, extract_channels, extract_volumes, extract_primary,
      reset_variables,
      scenario_state, scenario_truth, particle_with_energy, map_add, TLorentzVector.get,
      scenario_truth_record]
    norm_num
  have h := C1_volume_value_is_sum_of_matching_segments ["LArVol"] (scenario_state 6) 3
    scenario_truth none scenario_truth_record (by simp)
    (by simp [map_keys, scenario_state, create_volume_branches, map_assign]) hr
  refine ⟨hr, h.1 "LArVol" (by simp), ?_, h.2.1 "Other" (by simp)⟩
  simp [deposit_sum, all_segments, scenario_truth, List.filter]

/-- C2: for an event with a truth record the emitted total_primary_energy is the sum
of `Momentum[3]` over every particle of every primary vertex, nothing filtered or
clamped; for vertices with energies [2.0] and [3.5, 1.5] the loop body computes 7. -/
theorem C2_total_primary_energy_is_sum (volume_names : List String) (st : LoopState)
    (i : Nat) (tg4 : TG4Event) (daq : Option (List CENNSDAQ)) (r : LoopState)
    (hr : process_event volume_names st i ⟨some tg4, daq⟩ = some r) :
    r.total_primary_energy = primary_energy_sum tg4 ∧
    (extract_primary (reset_variables st i) (some scenario_truth)).total_primary_energy = 7 := by
  have h := process_event_truth_fields volume_names st r i _ hr
  have h2 : r.total_primary_energy = (extract_volumes volume_names
        (extract_primary (reset_variables st i) (some tg4)) (some tg4)).total_primary_energy :=
    congrArg (fun t => t.2.1) h
  constructor
  · rw [h2]
    have h3 : (extract_volumes volume_names
        (extract_primary (reset_variables st i) (some tg4)) (some tg4)).total_primary_energy
        = (extract_primary (reset_variables st i) (some tg4)).total_primary_energy := by
      unfold extract_volumes
      split_ifs <;> rfl
    rw [h3]
    simp [extract_primary, reset_variables, fold_vertices, primary_energy_sum]
  · simp [extract_primary, reset_variables, scenario_truth, particle_with_energy,
      TLorentzVector.get]
    norm_num

/-- The scenario of C2 run through the whole loop body: the emitted record has
total_primary_energy 7. -/
theorem C2_total_primary_energy_scenario :
    process_event ["LArVol"] (scenario_state 6) 3 ⟨some scenario_truth, none⟩
      = some scenario_truth_record ∧
    scenario_truth_record.total_primary_energy = primary_energy_sum scenario_truth ∧
    scenario_truth_record.total_primary_energy = 7 := by
  have hr : process_event ["LArVol"] (scenario_state 6) 3 ⟨some scenario_truth, none⟩
      = some scenario_truth_record := by
    simp [process_event, truth_state, extract_channels, extract_volumes, extract_primary,
      reset_variables,
      scenario_state, scenario_truth, particle_with_energy, map_add, TLorentzVector.get,
      scenario_truth_record]
    norm_num
  exact ⟨hr, (C2_total_primary_energy_is_sum ["LArVol"] (scenario_state 6) 3 scenario_truth
    none scenario_truth_record hr).1, rfl⟩
theorem resize_eq_some (v v1 : List Double_t) (n : Int) (x : Double_t) :
    resize v n x = some v1 ↔
      0 ≤ n ∧ v1 = v.take n.toNat ++ List.replicate (n.toNat - v.length) x := by
  unfold resize
  split_ifs with h
  · simp only [false_iff, not_and]
    intro h2
    omega
  · simp only [Option.some.injEq]
    constructor
    · intro h2
      exact ⟨by omega, h2.symm⟩
    · intro h2
      exact h2.2.symm

theorem resize_length (v v1 : List Double_t) (n : Int) (x : Double_t)
    (h : resize v n x = some v1) : v1.length = n.toNat := by
  rw [resize_eq_some] at h
  rw [h.2]
  simp
  omega

theorem resize_grow (v : List Double_t) (n : Int) (x : Double_t) (h0 : 0 ≤ n)
    (hlen : v.length ≤ n.toNat) :
    resize v n x = some (v ++ List.replicate (n.toNat - v.length) x) := by
  rw [resize_eq_some]
  refine ⟨h0, ?_⟩
  rw [List.take_of_length_le hlen]

/-- A waveform is stored exactly when its channel id is a valid index below
`n_channels`; the growth branch of lines 264-267 always ends in a write one past
the end of the vector. -/
theorem process_waveform_eq_some (st st1 : LoopState) (wfm : CENNSWaveform) :
    process_waveform st wfm = some st1 ↔
      (0 ≤ wfm.chid ∧ wfm.chid < st.n_channels ∧
        wfm.chid.toNat < st.channel_integrals.length) ∧
      st1 = store_integral st wfm.chid (waveform_integral wfm) := by
  unfold process_waveform grow_to_chid
  by_cases hc : wfm.chid ≥ st.n_channels
  · rw [if_pos hc]
    constructor
    · intro h
      rw [Option.bind_eq_some] at h
      obtain ⟨s, hs, h2⟩ := h
      rw [Option.map_eq_some'] at hs
      obtain ⟨v, hv, rfl⟩ := hs
      have hl := resize_length _ _ _ _ hv
      split_ifs at h2 with h3
      simp only at h3
      omega
    · rintro ⟨⟨-, h2, -⟩, -⟩
      omega
  · rw [if_neg hc]
    simp only [Option.some_bind]
    constructor
    · intro h
      split_ifs at h with h3
      simp only [Option.some.injEq] at h
      exact ⟨⟨h3.1, by omega, h3.2⟩, h.symm⟩
    · rintro ⟨⟨h1, -, h3⟩, rfl⟩
      rw [if_pos ⟨h1, h3⟩]
theorem store_integral_n_channels (st : LoopState) (c : Int) (x : Double_t) :
    (store_integral st c x).n_channels = st.n_channels := rfl

theorem store_integral_length (st : LoopState) (c : Int) (x : Double_t) :
    (store_integral st c x).channel_integrals.length = st.channel_integrals.length := by
  simp [store_integral]

theorem store_waveforms_nil (st : LoopState) : store_waveforms st [] = st := rfl

theorem store_waveforms_cons (st : LoopState) (w : CENNSWaveform) (ws : List CENNSWaveform) :
    store_waveforms st (w :: ws) =
      store_waveforms (store_integral st w.chid (waveform_integral w)) ws := rfl

theorem store_waveforms_n_channels (ws : List CENNSWaveform) :
    ∀ st : LoopState, (store_waveforms st ws).n_channels = st.n_channels := by
  induction ws with
  | nil => intro st; rfl
  | cons w ws ih => intro st; rw [store_waveforms_cons, ih, store_integral_n_channels]

theorem store_waveforms_length (ws : List CENNSWaveform) :
    ∀ st : LoopState,
      (store_waveforms st ws).channel_integrals.length = st.channel_integrals.length := by
  induction ws with
  | nil => intro st; rfl
  | cons w ws ih => intro st; rw [store_waveforms_cons, ih, store_integral_length]

/-- The waveforms of a record are all stored exactly when every channel id is a
valid index below `n_channels`. -/
theorem fold_waveforms_eq_some (ws : List CENNSWaveform) :
    ∀ st st1 : LoopState,
      List.foldlM process_waveform st ws = some st1 ↔
        (∀ w ∈ ws, 0 ≤ w.chid ∧ w.chid < st.n_channels ∧
          w.chid.toNat < st.channel_integrals.length) ∧
        st1 = store_waveforms st ws := by
  induction ws with
  | nil =>
    intro st st1
    rw [foldlM_some_nil]
    simp [store_waveforms_nil]
  | cons w ws ih =>
    intro st st1
    rw [foldlM_some_cons]
    constructor
    · rintro ⟨s2, h2, h3⟩
      rw [process_waveform_eq_some] at h2
      obtain ⟨hw, rfl⟩ := h2
      rw [ih] at h3
      obtain ⟨hall, rfl⟩ := h3
      refine ⟨?_, rfl⟩
      intro x hx
      rw [List.mem_cons] at hx
      rcases hx with rfl | hx
      · exact hw
      · have := hall x hx
        rw [store_integral_n_channels, store_integral_length] at this
        exact this
    · rintro ⟨hall, rfl⟩
      refine ⟨store_integral st w.chid (waveform_integral w), ?_, ?_⟩
      · rw [process_waveform_eq_some]
        exact ⟨hall w (List.mem_cons_self _ _), rfl⟩
      · rw [ih]
        refine ⟨?_, rfl⟩
        intro x hx
        rw [store_integral_n_channels, store_integral_length]
        exact hall x (List.mem_cons_of_mem _ hx)

theorem grow_to_nwaveforms_eq (st : LoopState) (k : Nat)
    (hlen : st.channel_integrals.length ≤ st.n_channels.toNat) :
    grow_to_nwaveforms st (k : Int) = some (grown st k) := by
  unfold grow_to_nwaveforms grown
  have hmax : (if (k : Int) > st.n_channels then (k : Int) else st.n_channels)
      = max st.n_channels (k : Int) := by
    split_ifs with h
    · exact (max_eq_right (le_of_lt h)).symm
    · exact (max_eq_left (not_lt.mp h)).symm
  simp only [hmax]
  rw [resize_grow _ _ _ (le_trans (Int.ofNat_nonneg k) (le_max_right _ _))]
  · rfl
  · have : st.n_channels.toNat ≤ (max st.n_channels (k : Int)).toNat :=
      Int.toNat_le_toNat (le_max_left _ _)
    omega

theorem grown_length (st : LoopState) (k : Nat)
    (hlen : st.channel_integrals.length ≤ st.n_channels.toNat) :
    (grown st k).channel_integrals.length = (grown st k).n_channels.toNat := by
  have : st.n_channels.toNat ≤ (max st.n_channels (k : Int)).toNat :=
    Int.toNat_le_toNat (le_max_left _ _)
  simp only [grown, List.length_append, List.length_replicate]
  omega

/-- A DAQ record is processed without a fault exactly when every channel id of
the record is non-negative and below the raised `n_channels`. -/
theorem process_daqdata_eq_some (st st1 : LoopState) (daqdata : CENNSDAQ)
    (hlen : st.channel_integrals.length ≤ st.n_channels.toNat) :
    process_daqdata st daqdata = some st1 ↔
      (∀ w ∈ daqdata.waveforms,
        0 ≤ w.chid ∧ w.chid < max st.n_channels (daqdata.waveforms.length : Int)) ∧
      st1 = store_waveforms (grown st daqdata.waveforms.length) daqdata.waveforms := by
  unfold process_daqdata
  rw [grow_to_nwaveforms_eq st _ hlen, Option.some_bind, fold_waveforms_eq_some]
  have hl := grown_length st daqdata.waveforms.length hlen
  have hn : (grown st daqdata.waveforms.length).n_channels
      = max st.n_channels (daqdata.waveforms.length : Int) := rfl
  constructor
  · rintro ⟨hall, rfl⟩
    refine ⟨fun w hw => ?_, rfl⟩
    have := hall w hw
    rw [hn] at this
    exact ⟨this.1, this.2.1⟩
  · rintro ⟨hall, rfl⟩
    refine ⟨fun w hw => ?_, rfl⟩
    have := hall w hw
    rw [hl, hn]
    refine ⟨this.1, this.2, ?_⟩
    omega

theorem process_daqdata_length (st st1 : LoopState) (daqdata : CENNSDAQ)
    (hlen : st.channel_integrals.length ≤ st.n_channels.toNat)
    (h : process_daqdata st daqdata = some st1) :
    st1.channel_integrals.length = st1.n_channels.toNat ∧
      st1.n_channels = max st.n_channels (daqdata.waveforms.length : Int) := by
  rw [process_daqdata_eq_some st st1 daqdata hlen] at h
  obtain ⟨-, rfl⟩ := h
  rw [store_waveforms_length, store_waveforms_n_channels]
  exact ⟨grown_length st _ hlen, rfl⟩
/-! ## Helper lemmas: the slots of `channel_integrals` -/

theorem store_integral_slot (st : LoopState) (c : Int) (x : Double_t) (j : Nat) :
    (store_integral st c x).channel_integrals[j]? =
      if c.toNat = j then (if c.toNat < st.channel_integrals.length then some x else none)
      else st.channel_integrals[j]? := by
  simp only [store_integral, List.getElem?_set]

theorem store_waveforms_slot_untouched (ws : List CENNSWaveform) (j : Nat) :
    ∀ st : LoopState, (∀ w ∈ ws, w.chid.toNat ≠ j) →
      (store_waveforms st ws).channel_integrals[j]? = st.channel_integrals[j]? := by
  induction ws with
  | nil => intro st _; rfl
  | cons w ws ih =>
    intro st h
    rw [store_waveforms_cons, ih _ (fun x hx => h x (List.mem_cons_of_mem _ hx)),
      store_integral_slot, if_neg (h w (List.mem_cons_self _ _))]

theorem store_waveforms_all_channel_integral (ws : List CENNSWaveform) :
    ∀ st : LoopState, (store_waveforms st ws).all_channel_integral
      = st.all_channel_integral + (ws.map waveform_integral).sum := by
  induction ws with
  | nil => intro st; simp [store_waveforms_nil]
  | cons w ws ih =>
    intro st
    rw [store_waveforms_cons, ih]
    simp [store_integral, add_assoc]

/-- With pairwise distinct channel ids every waveform finds its own integral in
its slot after the record is processed. -/
theorem store_waveforms_slot_of_nodup (ws : List CENNSWaveform) :
    ∀ st : LoopState, (ws.map (fun w => w.chid)).Nodup →
      (∀ w ∈ ws, 0 ≤ w.chid ∧ w.chid.toNat < st.channel_integrals.length) →
      ∀ w ∈ ws, (store_waveforms st ws).channel_integrals[w.chid.toNat]?
        = some (waveform_integral w) := by
  induction ws with
  | nil => intro st _ _ w hw; cases hw
  | cons a ws ih =>
    intro st hnd hrange w hw
    rw [List.map_cons, List.nodup_cons] at hnd
    have hrange1 : ∀ x ∈ ws, 0 ≤ x.chid ∧
        x.chid.toNat
          < (store_integral st a.chid (waveform_integral a)).channel_integrals.length := by
      intro x hx
      rw [store_integral_length]
      exact hrange x (List.mem_cons_of_mem _ hx)
    rw [store_waveforms_cons]
    rw [List.mem_cons] at hw
    by_cases hin : w ∈ ws
    · exact ih _ hnd.2 hrange1 w hin
    · have hwa : w = a := by
        rcases hw with h | h
        · exact h
        · exact absurd h hin
      subst hwa
      have hne : ∀ x ∈ ws, x.chid.toNat ≠ w.chid.toNat := by
        intro x hx heq
        have hx0 := (hrange x (List.mem_cons_of_mem _ hx)).1
        have hw0 := (hrange w (List.mem_cons_self _ _)).1
        have : x.chid = w.chid := by omega
        exact hnd.1 (List.mem_map.mpr ⟨x, hx, this⟩)
      rw [store_waveforms_slot_untouched ws _ _ hne, store_integral_slot, if_pos rfl,
        if_pos (hrange w (List.mem_cons_self _ _)).2]

theorem zero_outside_store_waveforms (ws : List CENNSWaveform) (st : LoopState)
    (seen : List Int) (hz : zero_outside st seen) (hnn : ∀ w ∈ ws, 0 ≤ w.chid) :
    zero_outside (store_waveforms st ws) (seen ++ ws.map (fun w => w.chid)) := by
  intro j x hx hj
  rw [List.mem_append, not_or] at hj
  have hne : ∀ w ∈ ws, w.chid.toNat ≠ j := by
    intro w hw heq
    apply hj.2
    have := hnn w hw
    exact List.mem_map.mpr ⟨w, hw, by omega⟩
  rw [store_waveforms_slot_untouched ws j st hne] at hx
  exact hz j x hx hj.1

theorem zero_outside_grown (st : LoopState) (k : Nat) (seen : List Int)
    (hz : zero_outside st seen) : zero_outside (grown st k) seen := by
  intro j x hx hj
  simp only [grown, List.getElem?_append] at hx
  split_ifs at hx with h
  · exact hz j x hx hj
  · rw [List.getElem?_replicate] at hx
    split_ifs at hx
    simp only [Option.some.injEq] at hx
    exact hx.symm

/-! ## Helper lemmas: the channel block of one event -/

theorem truth_state_channel_fields (volume_names : List String) (st : LoopState) (i : Nat)
    (tg4 : Option TG4Event) :
    (truth_state volume_names st i tg4).channel_integrals = [] ∧
    (truth_state volume_names st i tg4).n_channels = st.n_channels ∧
    (truth_state volume_names st i tg4).all_channel_integral = 0 := by
  cases tg4 with
  | none => exact ⟨rfl, rfl, rfl⟩
  | some ev =>
    unfold truth_state extract_volumes
    split_ifs <;> exact ⟨rfl, rfl, rfl⟩

theorem process_event_eq (volume_names : List String) (st : LoopState) (i : Nat) (ev : Event) :
    process_event volume_names st i ev =
      extract_channels (truth_state volume_names st i ev.tg4_event) ev.cenns_daq_v := rfl

theorem foldl_add_eq_sum (l : List Double_t) :
    ∀ e : Double_t, l.foldl (fun integral sample => integral + sample) e = e + l.sum := by
  induction l with
  | nil => intro e; simp
  | cons a l ih => intro e; rw [List.foldl_cons, ih]; simp [add_assoc]

theorem waveform_integral_eq (wfm : CENNSWaveform) :
    waveform_integral wfm = wfm.samples.sum * wfm.sample_period := by
  unfold waveform_integral
  split_ifs with h
  · rw [foldl_add_eq_sum, zero_add]
  · have : wfm.samples = [] := List.eq_nil_of_length_eq_zero (by omega)
    rw [this]
    simp

/-! ## The claims -/

/-- C3: for an event whose DAQ list is one record with `k` waveforms whose channel
ids are a permutation of 0..k-1, from any carried-in channel count `p`: a record is
emitted, its n_channels is max(p, k), channel_integrals has that length, the slot of
every waveform holds sum(samples) * sample_period, the slots from `k` on hold 0, and
all_channel_integral is the sum of the `k` integrals. -/
theorem C3_single_record_channel_integrals (volume_names : List String) (st : LoopState)
    (i : Nat) (tg4 : Option TG4Event) (ws : List CENNSWaveform) (k : Nat)
    (hperm : (ws.map (fun w => w.chid)).Perm ((List.range k).map (fun j : Nat => (j : Int)))) :
    ∃ r, process_event volume_names st i ⟨tg4, some [⟨ws⟩]⟩ = some r ∧
      r.n_channels = max st.n_channels (k : Int) ∧
      r.channel_integrals.length = (max st.n_channels (k : Int)).toNat ∧
      (∀ w ∈ ws,
        r.channel_integrals[w.chid.toNat]? = some (w.samples.sum * w.sample_period)) ∧
      (∀ j : Nat, k ≤ j → j < (max st.n_channels (k : Int)).toNat →
        r.channel_integrals[j]? = some 0) ∧
      r.all_channel_integral = (ws.map (fun w => w.samples.sum * w.sample_period)).sum := by
  obtain ⟨hci, hn, haci⟩ := truth_state_channel_fields volume_names st i tg4
  have hk : ws.length = k := by
    have := hperm.length_eq
    simpa using this
  have hmem : ∀ w ∈ ws, 0 ≤ w.chid ∧ w.chid < (k : Int) := by
    intro w hw
    have : w.chid ∈ (List.range k).map (fun j : Nat => (j : Int)) :=
      hperm.subset (List.mem_map.mpr ⟨w, hw, rfl⟩)
    rw [List.mem_map] at this
    obtain ⟨j, hj, hjw⟩ := this
    rw [List.mem_range] at hj
    omega
  have hnd : (ws.map (fun w => w.chid)).Nodup := by
    rw [hperm.nodup_iff]
    exact (List.nodup_range k).map Nat.cast_injective
  have hlen0 : (truth_state volume_names st i tg4).channel_integrals.length
      ≤ (truth_state volume_names st i tg4).n_channels.toNat := by
    rw [hci]
    exact Nat.zero_le _
  have hgl := grown_length (truth_state volume_names st i tg4) k hlen0
  have hgn : (grown (truth_state volume_names st i tg4) k).n_channels
      = max st.n_channels (k : Int) := by
    simp only [grown, hn]
  have hrange : ∀ w ∈ ws, 0 ≤ w.chid ∧
      w.chid.toNat < (grown (truth_state volume_names st i tg4) k).channel_integrals.length := by
    intro w hw
    have := hmem w hw
    rw [hgl, hgn]
    refine ⟨this.1, ?_⟩
    have : (k : Int) ≤ max st.n_channels (k : Int) := le_max_right _ _
    omega
  refine ⟨store_waveforms (grown (truth_state volume_names st i tg4) k) ws,
    ?_, ?_, ?_, ?_, ?_, ?_⟩
  · rw [process_event_eq]
    simp only [extract_channels]
    rw [foldlM_some_cons]
    refine ⟨store_waveforms (grown (truth_state volume_names st i tg4) k) ws, ?_, ?_⟩
    · rw [process_daqdata_eq_some _ _ _ hlen0]
      simp only [hk, hn]
      refine ⟨fun w hw => ?_, trivial⟩
      have := hmem w hw
      exact ⟨this.1, lt_of_lt_of_le this.2 (le_max_right _ _)⟩
    · rw [foldlM_some_nil]
  · rw [store_waveforms_n_channels, hgn]
  · rw [store_waveforms_length, hgl, hgn]
  · intro w hw
    rw [← waveform_integral_eq]
    exact store_waveforms_slot_of_nodup ws _ hnd hrange w hw
  · intro j hkj hj
    rw [store_waveforms_slot_untouched ws j]
    · simp only [grown, hci, hn, List.nil_append, List.length_nil, Nat.sub_zero]
      rw [List.getElem?_replicate, if_pos hj]
    · intro w hw
      have := hmem w hw
      omega
  · rw [store_waveforms_all_channel_integral]
    have : (grown (truth_state volume_names st i tg4) k).all_channel_integral = 0 := haci
    rw [this, zero_add]
    congr 1
    exact List.map_congr_left (fun w _ => waveform_integral_eq w)

/-- The scenario of C3: three waveforms with channel ids 0, 1, 2, samples [1, 1, 1]
and period 2.0 give channel_integrals [6, 6, 6], all_channel_integral 18 and
n_channels 3 (from a carried-in count of 2). -/
theorem C3_single_record_scenario :
    process_event ["LArVol"] (scenario_state 2) 0
        ⟨none, some [⟨[scenario_waveform 0, scenario_waveform 1, scenario_waveform 2]⟩]⟩
      = some scenario_channels_record ∧
    scenario_channels_record.channel_integrals = [6, 6, 6] ∧
    scenario_channels_record.all_channel_integral = 18 ∧
    scenario_channels_record.n_channels ≥ 3 := by
  obtain ⟨r, hr, hn, hlen, hslot, -, hall⟩ := C3_single_record_channel_integrals ["LArVol"]
    (scenario_state 2) 0 none
    [scenario_waveform 0, scenario_waveform 1, scenario_waveform 2] 3
    (by simp [scenario_waveform, List.range, List.range.loop])
  have h0 := hslot (scenario_waveform 0) (by simp)
  have h1 := hslot (scenario_waveform 1) (by simp)
  have h2 := hslot (scenario_waveform 2) (by simp)
  have hev := process_event_truth_fields ["LArVol"] (scenario_state 2) r 0 _ hr
  have hr_eq : r = scenario_channels_record := by
    obtain ⟨e, t, m, ci, n, a⟩ := r
    simp only [scenario_state, scenario_waveform, Int.toNat_zero] at hn hlen h0 h1 h2 hall
    simp only [truth_fields, extract_volumes, extract_primary, reset_variables, scenario_state,
      Prod.mk.injEq] at hev
    obtain ⟨rfl, rfl, rfl⟩ := hev
    norm_num at hn hlen h0 h1 h2 hall
    subst hn hall
    match ci, hlen, h0, h1, h2 with
    | [a0, a1, a2], _, h0, h1, h2 =>
      simp at h0 h1 h2
      subst h0 h1 h2
      simp [scenario_channels_record]
  rw [hr] 
  rw [hr_eq]
  exact ⟨rfl, rfl, rfl, by decide⟩
/-- C4, as stated, fails: two DAQ records of one event, each with one waveform on
channel 0. The record is emitted with n_channels 1, above the only channel id 0, yet
channel_integrals sums to 1 (the second integral overwrote the first) and
all_channel_integral is 2. -/
theorem C4_counterexample_shared_chid :
    process_event [] zero_state 0
        ⟨some empty_truth, some [⟨[unit_waveform 0]⟩, ⟨[unit_waveform 0]⟩]⟩
      = some shared_chid_record ∧
    (∀ c ∈ event_chids (some [⟨[unit_waveform 0]⟩, ⟨[unit_waveform 0]⟩]),
      c < shared_chid_record.n_channels) ∧
    shared_chid_record.channel_integrals.sum ≠ shared_chid_record.all_channel_integral := by
  refine ⟨?_, ?_, ?_⟩
  · simp [process_event, truth_state, extract_channels, extract_volumes, extract_primary,
      reset_variables,
      zero_state, initial_state, create_volume_branches, process_daqdata, grow_to_nwaveforms,
      resize, process_waveform, grow_to_chid, store_integral, waveform_integral, unit_waveform,
      shared_chid_record, empty_truth]
    norm_num
  · simp [event_chids, unit_waveform, shared_chid_record]
  · simp [shared_chid_record]

/-! ## Helper lemmas: the keys of `volume_edep` and runs of the loop -/

theorem map_assign_sorted (m : List (String × Double_t)) (k : String) (x : Double_t)
    (h : (m.map Prod.fst).Sorted (· < ·)) :
    ((map_assign m k x).map Prod.fst).Sorted (· < ·) := by
  induction m with
  | nil => simp [map_assign]
  | cons kv rest ih =>
    obtain ⟨k1, v1⟩ := kv
    rw [List.map_cons, List.sorted_cons] at h
    by_cases h1 : k < k1
    · simp only [map_assign, h1, if_true, List.map_cons, List.sorted_cons]
      refine ⟨?_, h⟩
      intro b hb
      rw [List.mem_cons] at hb
      rcases hb with rfl | hb
      · exact h1
      · exact lt_trans h1 (h.1 b hb)
    · by_cases h2 : k1 < k
      · simp only [map_assign, h1, h2, if_false, if_true, List.map_cons, List.sorted_cons]
        refine ⟨?_, ih h.2⟩
        intro b hb
        rw [map_assign_keys_mem] at hb
        rcases hb with rfl | hb
        · exact h2
        · exact h.1 b hb
      · have hk : k1 = k := le_antisymm (not_lt.mp h1) (not_lt.mp h2)
        subst hk
        simp only [map_assign, h1, if_false, List.map_cons, List.sorted_cons]
        exact h

theorem create_volume_branches_sorted (volume_names : List String) :
    ((create_volume_branches volume_names).map Prod.fst).Sorted (· < ·) := by
  have key : ∀ (l : List String) (m : List (String × Double_t)),
      (m.map Prod.fst).Sorted (· < ·) →
      ((l.foldl (fun m vol_name => map_assign m vol_name 0) m).map Prod.fst).Sorted (· < ·) := by
    intro l
    induction l with
    | nil => intro m hm; exact hm
    | cons a l ih =>
      intro m hm
      rw [List.foldl_cons]
      exact ih _ (map_assign_sorted m a 0 hm)
  exact key volume_names [] (by simp)

theorem process_event_keys (volume_names : List String) (st r : LoopState) (i : Nat)
    (ev : Event) (hr : process_event volume_names st i ev = some r) :
    map_keys r.volume_edep = map_keys st.volume_edep := by
  have h := process_event_truth_fields volume_names st r i ev hr
  have h2 : r.volume_edep = (extract_volumes volume_names
        (extract_primary (reset_variables st i) ev.tg4_event) ev.tg4_event).volume_edep :=
    congrArg (fun t => t.2.2) h
  rw [h2]
  have hreset : map_keys (reset_variables st i).volume_edep = map_keys st.volume_edep := by
    simp [map_keys, reset_variables]
  cases ht : ev.tg4_event with
  | none => exact hreset
  | some tg4 =>
    unfold extract_volumes
    split_ifs
    · exact hreset
    · simp only [map_keys, extract_primary, fold_detectors_keys]
      exact hreset

theorem event_loop_nil (volume_names : List String) (st : LoopState) (i : Nat)
    (recs : List LoopState) :
    event_loop volume_names st i [] = some recs ↔ recs = [] := by
  simp [event_loop, eq_comm]

theorem event_loop_cons (volume_names : List String) (st : LoopState) (i : Nat) (ev : Event)
    (rest : List Event) (recs : List LoopState) :
    event_loop volume_names st i (ev :: rest) = some recs ↔
      ∃ r tail, process_event volume_names st i ev = some r ∧
        event_loop volume_names r (i + 1) rest = some tail ∧ recs = r :: tail := by
  simp only [event_loop, Option.bind_eq_some, Option.map_eq_some']
  constructor
  · rintro ⟨r, hr, tail, ht, rfl⟩
    exact ⟨r, tail, hr, ht, rfl⟩
  · rintro ⟨r, tail, hr, ht, rfl⟩
    exact ⟨r, hr, tail, ht, rfl⟩

/-- A property of the loop state that every iteration keeps holds for every
emitted record of a run. -/
theorem event_loop_invariant (volume_names : List String) (P : LoopState → Prop)
    (hstep : ∀ st i ev r, P st → process_event volume_names st i ev = some r → P r) :
    ∀ (events : List Event) (st : LoopState) (i : Nat) (recs : List LoopState),
      P st → event_loop volume_names st i events = some recs → ∀ r ∈ recs, P r := by
  intro events
  induction events with
  | nil =>
    intro st i recs _ h r hr
    rw [event_loop_nil] at h
    rw [h] at hr
    cases hr
  | cons ev rest ih =>
    intro st i recs hP h r hr
    rw [event_loop_cons] at h
    obtain ⟨r1, tail, h1, h2, rfl⟩ := h
    have hP1 := hstep st i ev r1 hP h1
    rw [List.mem_cons] at hr
    rcases hr with rfl | hr
    · exact hP1
    · exact ih r1 (i + 1) tail hP1 h2 r hr

/-! ## C5 -/

/-- C5, as stated, fails: for the volume list ["b", "a", "b"] the map of the emitted
record iterates "a" before "b", not in the order of the list; and the branches are
requested for "b", "a", "b", the duplicate included. -/
theorem C5_counterexample_key_order :
    main_records ["b", "a", "b"] [some []] [some empty_truth] 0 0 0
      = some [two_volume_record] ∧
    map_keys two_volume_record.volume_edep = ["a", "b"] ∧
    first_seen ["b", "a", "b"] = ["b", "a"] ∧
    map_keys two_volume_record.volume_edep ≠ first_seen ["b", "a", "b"] ∧
    volume_branch_names ["b", "a", "b"] = ["edep_b", "edep_a", "edep_b"] ∧
    volume_branch_names ["b", "a", "b"] ≠ volume_branch_names (first_seen ["b", "a", "b"]) := by
  have h1 : ¬ "b" < "a" := by rw [String.lt_iff_toList_lt]; decide
  have h2 : "a" < "b" := by rw [String.lt_iff_toList_lt]; decide
  refine ⟨?_, ?_, ?_, ?_, ?_, ?_⟩
  · simp [main_records, get_entries, event_loop, process_event, truth_state, extract_channels,
      extract_volumes, extract_primary, reset_variables, initial_state, create_volume_branches,
      map_assign, h1, h2, two_volume_record, empty_truth]
  · simp [map_keys, two_volume_record]
  · simp [first_seen]
  · simp [map_keys, two_volume_record, first_seen]
  · decide
  · simp [volume_branch_names, first_seen]

/-- C5 (amended): in every record emitted by a run, the keys of the per-volume map
are exactly the names of the volume list, each once, and the map iterates them in
ascending order of the names, whatever the events hold; the branches are requested
one per entry of the list, in list order, each for a name that has a map entry. -/
theorem C5_keys_are_volume_names_ascending (volume_names : List String)
    (cenns_tree : List (Option (List CENNSDAQ))) (edepsim_tree : List (Option TG4Event))
    (event_id0 : Int) (total_primary_energy0 : Double_t) (n_channels0 : Int)
    (recs : List LoopState)
    (hrun : main_records volume_names cenns_tree edepsim_tree event_id0 total_primary_energy0
      n_channels0 = some recs) :
    ∀ r ∈ recs,
      (∀ v, v ∈ map_keys r.volume_edep ↔ v ∈ volume_names) ∧
      (map_keys r.volume_edep).Nodup ∧
      (map_keys r.volume_edep).Sorted (· < ·) ∧
      (volume_branch_names volume_names).length = volume_names.length ∧
      (∀ (j : Nat) (v : String), volume_names[j]? = some v →
        (volume_branch_names volume_names)[j]? = some ("edep_" ++ v) ∧
        (map_find r.volume_edep v).isSome = true) := by
  have hinv := event_loop_invariant volume_names
    (fun s => map_keys s.volume_edep = map_keys (create_volume_branches volume_names))
    (fun st i ev r hP h => (process_event_keys volume_names st r i ev h).trans hP)
    (get_entries cenns_tree edepsim_tree)
    (initial_state volume_names event_id0 total_primary_energy0 n_channels0) 0 recs rfl hrun
  intro r hr
  have hk := hinv r hr
  simp only at hk
  have hs := create_volume_branches_sorted volume_names
  have hmem : ∀ v, v ∈ map_keys r.volume_edep ↔ v ∈ volume_names := by
    intro v
    rw [hk]
    exact create_volume_branches_keys_mem volume_names v
  refine ⟨hmem, ?_, ?_, ?_, ?_⟩
  · rw [hk]
    exact hs.nodup
  · rw [hk]
    exact hs
  · simp [volume_branch_names]
  · intro j v hj
    refine ⟨?_, ?_⟩
    · simp [volume_branch_names, List.getElem?_map, hj]
    · rw [map_find_isSome]
      exact (hmem v).mpr (List.getElem?_mem hj)

/-- An instance of C5 (amended): the run over one event with the volume list
["b", "a", "b"]. -/
theorem C5_keys_scenario :
    main_records ["b", "a", "b"] [some []] [some empty_truth] 0 0 0
      = some [two_volume_record] ∧
    (∀ v, v ∈ map_keys two_volume_record.volume_edep ↔ v ∈ ["b", "a", "b"]) ∧
    (map_keys two_volume_record.volume_edep).Nodup ∧
    (map_keys two_volume_record.volume_edep).Sorted (· < ·) ∧
    (volume_branch_names ["b", "a", "b"]).length = ["b", "a", "b"].length ∧
    (∀ (j : Nat) (v : String), ["b", "a", "b"][j]? = some v →
      (volume_branch_names ["b", "a", "b"])[j]? = some ("edep_" ++ v) ∧
      (map_find two_volume_record.volume_edep v).isSome = true) := by
  have h1 : ¬ "b" < "a" := by rw [String.lt_iff_toList_lt]; decide
  have h2 : "a" < "b" := by rw [String.lt_iff_toList_lt]; decide
  have hrun : main_records ["b", "a", "b"] [some []] [some empty_truth] 0 0 0
      = some [two_volume_record] := by
    simp [main_records, get_entries, event_loop, process_event, truth_state, extract_channels,
      extract_volumes, extract_primary, reset_variables, initial_state, create_volume_branches,
      map_assign, h1, h2, two_volume_record, empty_truth]
  exact ⟨hrun, C5_keys_are_volume_names_ascending ["b", "a", "b"] [some []]
    [some empty_truth] 0 0 0 _ hrun two_volume_record (by simp)⟩

/-! ## Helper lemmas: `n_channels` over one event and over a run -/

theorem fold_daqdata_n_channels (daq_v : List CENNSDAQ) :
    ∀ (st r : LoopState), st.channel_integrals.length ≤ st.n_channels.toNat →
      List.foldlM process_daqdata st daq_v = some r →
      st.n_channels ≤ r.n_channels ∧
        (daq_v ≠ [] → r.channel_integrals.length = r.n_channels.toNat) ∧
        (daq_v = [] → r = st) := by
  induction daq_v with
  | nil =>
    intro st r _ h
    rw [foldlM_some_nil] at h
    subst h
    exact ⟨le_refl _, fun h => absurd rfl h, fun _ => rfl⟩
  | cons d ds ih =>
    intro st r hlen h
    rw [foldlM_some_cons] at h
    obtain ⟨s2, h2, h3⟩ := h
    have hL := process_daqdata_length st s2 d hlen h2
    have hstep : st.n_channels ≤ s2.n_channels := by
      rw [hL.2]
      exact le_max_left _ _
    have hrec := ih s2 r (by rw [hL.1]) h3
    refine ⟨le_trans hstep hrec.1, fun _ => ?_, fun h => absurd h (List.cons_ne_nil _ _)⟩
    by_cases hds : ds = []
    · rw [hrec.2.2 hds]
      exact hL.1
    · exact hrec.2.1 hds

/-- One iteration and `n_channels`: a null DAQ pointer gives 0 and an empty vector;
a DAQ list never lowers the carried-in value, an empty one leaves it as it is and
leaves the vector empty, a non-empty one leaves the vector with `n_channels` slots. -/
theorem process_event_n_channels (volume_names : List String) (st r : LoopState) (i : Nat)
    (ev : Event) (hr : process_event volume_names st i ev = some r) :
    (ev.cenns_daq_v = none → r.n_channels = 0 ∧ r.channel_integrals = [] ∧
      r.all_channel_integral = 0) ∧
    (∀ daq_v, ev.cenns_daq_v = some daq_v → st.n_channels ≤ r.n_channels ∧
      (daq_v ≠ [] → r.channel_integrals.length = r.n_channels.toNat) ∧
      (daq_v = [] → r.n_channels = st.n_channels ∧ r.channel_integrals = [] ∧
        r.all_channel_integral = 0)) := by
  obtain ⟨hci, hn, haci⟩ := truth_state_channel_fields volume_names st i ev.tg4_event
  rw [process_event_eq] at hr
  constructor
  · intro hd
    rw [hd] at hr
    simp only [extract_channels, Option.some.injEq] at hr
    rw [← hr]
    exact ⟨rfl, hci, haci⟩
  · intro daq_v hd
    rw [hd] at hr
    have h := fold_daqdata_n_channels daq_v _ r (by rw [hci]; exact Nat.zero_le _) hr
    rw [hn] at h
    refine ⟨h.1, h.2.1, fun he => ?_⟩
    rw [h.2.2 he]
    exact ⟨hn, hci, haci⟩

theorem event_loop_length (volume_names : List String) :
    ∀ (events : List Event) (st : LoopState) (i : Nat) (recs : List LoopState),
      event_loop volume_names st i events = some recs → recs.length = events.length := by
  intro events
  induction events with
  | nil =>
    intro st i recs h
    rw [event_loop_nil] at h
    rw [h]
    rfl
  | cons ev rest ih =>
    intro st i recs h
    rw [event_loop_cons] at h
    obtain ⟨r1, tail, _, h2, rfl⟩ := h
    simp [ih r1 (i + 1) tail h2]

/-- Every record of a run is the result of one iteration, started from the
record of the preceding event (from the initial state for the first event). -/
theorem event_loop_step (volume_names : List String) :
    ∀ (events : List Event) (st : LoopState) (i : Nat) (recs : List LoopState),
      event_loop volume_names st i events = some recs →
      ∀ (j : Nat) (ev : Event) (r : LoopState), events[j]? = some ev → recs[j]? = some r →
        process_event volume_names (state_before st recs j) (i + j) ev = some r := by
  intro events
  induction events with
  | nil =>
    intro st i recs _ j ev r hev _
    simp at hev
  | cons e rest ih =>
    intro st i recs h j ev r hev hrec
    rw [event_loop_cons] at h
    obtain ⟨r1, tail, h1, h2, rfl⟩ := h
    cases j with
    | zero =>
      simp only [List.getElem?_cons_zero, Option.some.injEq] at hev hrec
      subst hev hrec
      exact h1
    | succ j =>
      simp only [List.getElem?_cons_succ] at hev hrec
      have hstep := ih r1 (i + 1) tail h2 j ev r hev hrec
      have hidx : i + (j + 1) = i + 1 + j := by omega
      rw [hidx]
      have hstate : state_before st (r1 :: tail) (j + 1) = state_before r1 tail j := by
        cases j with
        | zero => simp [state_before]
        | succ j =>
          have hlt : j < tail.length := by
            by_contra hge
            have hnone : tail[j + 1]? = none :=
              List.getElem?_eq_none (by omega)
            rw [hnone] at hrec
            cases hrec
          simp [state_before, List.getD, List.getElem?_eq_getElem hlt]
      rw [hstate]
      exact hstep
/-! ## C6 to C10 -/

theorem run_then_empty_eq :
    main_records [] cenns_tree_then_empty [some scenario_truth, some scenario_truth] 0 0 0
      = some [three_channel_record, empty_daq_record] := by
  simp [main_records, get_entries, cenns_tree_then_empty, event_loop, process_event, truth_state,
    extract_channels, extract_volumes, extract_primary, reset_variables, initial_state,
    create_volume_branches, process_daqdata, grow_to_nwaveforms, resize, process_waveform,
    grow_to_chid, store_integral, waveform_integral, unit_waveform, scenario_truth,
    particle_with_energy, TLorentzVector.get, three_channel_record, empty_daq_record]
  norm_num

/-- C6 at the failing input: after an event with three channels, an event whose DAQ
list is present and has zero records is emitted with n_channels 3, not 0 (its
channel_integrals is empty, all_channel_integral 0 and total_primary_energy 7). -/
theorem C6_empty_daq_list_keeps_n_channels :
    main_records [] cenns_tree_then_empty [some scenario_truth, some scenario_truth] 0 0 0
      = some [three_channel_record, empty_daq_record] ∧
    daq_record_count ⟨some scenario_truth, some []⟩ = 0 ∧
    empty_daq_record.n_channels = 3 ∧
    empty_daq_record.n_channels ≠ 0 ∧
    empty_daq_record.channel_integrals = [] ∧
    empty_daq_record.all_channel_integral = 0 ∧
    empty_daq_record.total_primary_energy = primary_energy_sum scenario_truth := by
  refine ⟨run_then_empty_eq, rfl, rfl, by decide, rfl, rfl, ?_⟩
  simp [empty_daq_record, primary_energy_sum, scenario_truth, particle_with_energy,
    TLorentzVector.get]
  norm_num

/-- What holds of n_channels along every run: the value emitted for an event is at
least the value emitted for the preceding event (the carried-in value for the first
event), or it is 0 and the DAQ pointer of the event is null; an event with a DAQ
list, empty or not, never lowers n_channels. -/
theorem n_channels_monotone_except_null_reset (volume_names : List String)
    (events : List Event) (st : LoopState) (i : Nat) (recs : List LoopState)
    (hrun : event_loop volume_names st i events = some recs) :
    ∀ (j : Nat) (ev : Event) (r : LoopState), events[j]? = some ev → recs[j]? = some r →
      ((state_before st recs j).n_channels ≤ r.n_channels ∨
        (ev.cenns_daq_v = none ∧ r.n_channels = 0)) ∧
      (∀ daq_v, ev.cenns_daq_v = some daq_v →
        (state_before st recs j).n_channels ≤ r.n_channels) := by
  intro j ev r hev hrec
  have hstep := event_loop_step volume_names events st i recs hrun j ev r hev hrec
  have hn := process_event_n_channels volume_names _ r _ ev hstep
  constructor
  · cases hd : ev.cenns_daq_v with
    | none =>
      right
      exact ⟨rfl, (hn.1 hd).1⟩
    | some daq_v =>
      left
      exact (hn.2 daq_v hd).1
  · intro daq_v hd
    exact (hn.2 daq_v hd).1

/-- C7 at the failing input: the second event of the run has zero DAQ records (its
DAQ list is present and empty); the n_channels emitted for it is 3, the value of the
preceding record, not 0. -/
theorem C7_zero_record_event_not_reset :
    main_records [] cenns_tree_then_empty [some scenario_truth, some scenario_truth] 0 0 0
      = some [three_channel_record, empty_daq_record] ∧
    (get_entries cenns_tree_then_empty [some scenario_truth, some scenario_truth])[1]?
      = some ⟨some scenario_truth, some []⟩ ∧
    daq_record_count ⟨some scenario_truth, some []⟩ = 0 ∧
    three_channel_record.n_channels = 3 ∧
    empty_daq_record.n_channels = 3 ∧
    ¬ (empty_daq_record.n_channels = 0) := by
  refine ⟨run_then_empty_eq, rfl, rfl, rfl, rfl, ?_⟩
  simp [empty_daq_record]

/-- C8 at the failing input: the record of the event whose DAQ list has zero
records has an empty channel_integrals and n_channels 3. -/
theorem C8_empty_daq_list_vector_shorter :
    main_records [] cenns_tree_then_empty [some scenario_truth, some scenario_truth] 0 0 0
      = some [three_channel_record, empty_daq_record] ∧
    empty_daq_record.channel_integrals.length = 0 ∧
    empty_daq_record.n_channels = 3 ∧
    ¬ ((empty_daq_record.channel_integrals.length : Int) ≥ empty_daq_record.n_channels) := by
  refine ⟨run_then_empty_eq, rfl, rfl, ?_⟩
  simp [empty_daq_record]

theorem reset_variables_eq (st1 st2 : LoopState) (i : Nat)
    (hn : st1.n_channels = st2.n_channels)
    (hkeys : map_keys st1.volume_edep = map_keys st2.volume_edep) :
    reset_variables st1 i = reset_variables st2 i := by
  have hmap : ∀ m : List (String × Double_t),
      m.map (fun kv => (kv.1, (0 : Double_t))) = (map_keys m).map (fun k => (k, 0)) := by
    intro m
    simp [map_keys, List.map_map, Function.comp_def]
  simp only [reset_variables, hn, hmap, hkeys]

/-- One iteration reads of the incoming state only `n_channels` and the keys of
`volume_edep`. -/
theorem process_event_reads_n_channels_and_keys (volume_names : List String)
    (st1 st2 : LoopState) (i : Nat) (ev : Event)
    (hn : st1.n_channels = st2.n_channels)
    (hkeys : map_keys st1.volume_edep = map_keys st2.volume_edep) :
    process_event volume_names st1 i ev = process_event volume_names st2 i ev := by
  unfold process_event truth_state
  rw [reset_variables_eq st1 st2 i hn hkeys]

/-- The records of a run do not depend on what `event_id` and
`total_primary_energy` hold before the loop; of the variables without initial value
only `n_channels` can show in the output. -/
theorem main_records_reads_only_n_channels0 (volume_names : List String)
    (cenns_tree : List (Option (List CENNSDAQ))) (edepsim_tree : List (Option TG4Event))
    (event_id0 event_id1 : Int) (total_primary_energy0 total_primary_energy1 : Double_t)
    (n_channels0 : Int) :
    main_records volume_names cenns_tree edepsim_tree event_id0 total_primary_energy0
        n_channels0
      = main_records volume_names cenns_tree edepsim_tree event_id1 total_primary_energy1
        n_channels0 := by
  unfold main_records
  cases get_entries cenns_tree edepsim_tree with
  | nil => rfl
  | cons ev rest =>
    simp only [event_loop]
    rw [process_event_reads_n_channels_and_keys volume_names
      (initial_state volume_names event_id0 total_primary_energy0 n_channels0)
      (initial_state volume_names event_id1 total_primary_energy1 n_channels0) 0 ev rfl rfl]

/-- C9, as stated, fails from the index `2^31` on: `event_id` is an `Int_t`, and
line 195 stores the `Long64_t` index in it. At the index 2147483648 the emitted
event_id is -2147483648, not the index. -/
theorem C9_counterexample_index_beyond_Int_t :
    process_event [] zero_state 2147483648 ⟨some empty_truth, some []⟩
      = some wrapped_index_record ∧
    wrapped_index_record.event_id = -2147483648 ∧
    wrapped_index_record.event_id ≠ ((2147483648 : Nat) : Int) := by
  refine ⟨?_, rfl, ?_⟩
  · simp [process_event, truth_state, extract_channels, extract_volumes, extract_primary,
      reset_variables, zero_state, initial_state, create_volume_branches, empty_truth,
      wrapped_index_record, to_Int_t_wraps]
  · simp [wrapped_index_record]

/-- C9 (amended): one iteration started from two loop states with the same
n_channels (and the keys of the volume list in their maps), which differ arbitrarily
in event_id, total_primary_energy, the per-volume values, channel_integrals and
all_channel_integral, gives the same result; the emitted event_id is the index
converted to `Int_t`: the value of the range `-2^31 .. 2^31 - 1` congruent to the
index modulo `2^32`, which is the index itself for every index below `2^31`. -/
theorem C9_leftovers_do_not_leak (volume_names : List String) (st1 st2 : LoopState)
    (i : Nat) (ev : Event)
    (hn : st1.n_channels = st2.n_channels)
    (hk1 : map_keys st1.volume_edep = map_keys (create_volume_branches volume_names))
    (hk2 : map_keys st2.volume_edep = map_keys (create_volume_branches volume_names)) :
    process_event volume_names st1 i ev = process_event volume_names st2 i ev ∧
    (∀ r, process_event volume_names st1 i ev = some r →
      r.event_id = to_Int_t (i : Int) ∧
      (-2147483648 ≤ r.event_id ∧ r.event_id < 2147483648 ∧
        (r.event_id - (i : Int)) % 4294967296 = 0) ∧
      (i < 2147483648 → r.event_id = (i : Int))) := by
  constructor
  · exact process_event_reads_n_channels_and_keys volume_names st1 st2 i ev hn
      (hk1.trans hk2.symm)
  · intro r hr
    have h := process_event_truth_fields volume_names st1 r i ev hr
    have h2 : r.event_id = (extract_volumes volume_names
        (extract_primary (reset_variables st1 i) ev.tg4_event) ev.tg4_event).event_id :=
      congrArg (fun t => t.1) h
    have h3 : r.event_id = to_Int_t (i : Int) := by
      rw [h2]
      cases ev.tg4_event with
      | none => rfl
      | some tg4 =>
        unfold extract_volumes
        split_ifs <;> rfl
    refine ⟨h3, ?_, fun hi => h3.trans (to_Int_t_of_lt i hi)⟩
    rw [h3]
    exact to_Int_t_range (i : Int)

/-- An instance of C9 (amended): a state with leftovers and the initial state, both
with n_channels 2, give the same record for the three scenario waveforms at the
index 0, and its event_id is 0. -/
theorem C9_leftovers_scenario :
    process_event ["LArVol"] (scenario_state 2) 0
        ⟨none, some [⟨[scenario_waveform 0, scenario_waveform 1, scenario_waveform 2]⟩]⟩
      = some scenario_channels_record ∧
    process_event ["LArVol"] (initial_state ["LArVol"] 0 0 2) 0
        ⟨none, some [⟨[scenario_waveform 0, scenario_waveform 1, scenario_waveform 2]⟩]⟩
      = some scenario_channels_record ∧
    scenario_channels_record.event_id = ((0 : Nat) : Int) := by
  have h := C9_leftovers_do_not_leak ["LArVol"] (scenario_state 2)
    (initial_state ["LArVol"] 0 0 2) 0
    ⟨none, some [⟨[scenario_waveform 0, scenario_waveform 1, scenario_waveform 2]⟩]⟩
    rfl (by simp [map_keys, scenario_state, create_volume_branches, map_assign]) rfl
  have hr : process_event ["LArVol"] (scenario_state 2) 0
        ⟨none, some [⟨[scenario_waveform 0, scenario_waveform 1, scenario_waveform 2]⟩]⟩
      = some scenario_channels_record := by
    simp [process_event, truth_state, extract_channels, extract_volumes, extract_primary,
      reset_variables,
      scenario_state, process_daqdata, grow_to_nwaveforms,
      resize, process_waveform, grow_to_chid, store_integral, waveform_integral,
      scenario_waveform, scenario_channels_record]
    norm_num
  exact ⟨hr, h.1 ▸ hr, (h.2 _ hr).2.2 (by norm_num)⟩

/-- C10 at the failing input: the same trees and volume list give different
records when n_channels, which has no initial value, holds 0 or 5 before the first
event. -/
theorem C10_records_depend_on_initial_n_channels :
    main_records [] [some [⟨[unit_waveform 0]⟩]] [some empty_truth] 0 0 0
      = some [one_channel_record] ∧
    main_records [] [some [⟨[unit_waveform 0]⟩]] [some empty_truth] 0 0 5
      = some [five_channel_record] ∧
    one_channel_record ≠ five_channel_record := by
  refine ⟨?_, ?_, ?_⟩
  · simp [main_records, get_entries, event_loop, process_event, truth_state,
      extract_channels, extract_volumes, extract_primary, reset_variables, initial_state,
      create_volume_branches, process_daqdata, grow_to_nwaveforms, resize, process_waveform,
      grow_to_chid, store_integral, waveform_integral, unit_waveform, one_channel_record,
      empty_truth]
  · simp [main_records, get_entries, event_loop, process_event, truth_state,
      extract_channels, extract_volumes, extract_primary, reset_variables, initial_state,
      create_volume_branches, process_daqdata, grow_to_nwaveforms, resize, process_waveform,
      grow_to_chid, store_integral, waveform_integral, unit_waveform, five_channel_record,
      empty_truth]
  · simp [one_channel_record, five_channel_record]

/-! ## Helper lemmas: what a slot holds after an event -/

theorem last_integral_append (done later : List CENNSWaveform) (j : Nat) :
    last_integral (done ++ later) j =
      match last_integral later j with
      | some v => some v
      | none => last_integral done j := by
  induction done with
  | nil =>
    simp only [List.nil_append, last_integral]
    cases last_integral later j <;> rfl
  | cons w done ih =>
    rw [List.cons_append]
    simp only [last_integral]
    rw [ih]
    cases last_integral later j <;> rfl

theorem last_integral_of_last (done later : List CENNSWaveform) (w : CENNSWaveform)
    (h0 : 0 ≤ w.chid) (hlater : ∀ x ∈ later, x.chid ≠ w.chid) :
    last_integral (done ++ w :: later) w.chid.toNat = some (waveform_integral w) := by
  have hnone : ∀ l : List CENNSWaveform, (∀ x ∈ l, x.chid ≠ w.chid) →
      last_integral l w.chid.toNat = none := by
    intro l
    induction l with
    | nil => intro _; rfl
    | cons a l ih =>
      intro h
      have ha : ¬ a.chid = ((w.chid.toNat : Nat) : Int) := by
        rw [Int.toNat_of_nonneg h0]
        exact h a (List.mem_cons_self _ _)
      simp only [last_integral, ih (fun x hx => h x (List.mem_cons_of_mem _ hx)), ha, if_false]
  rw [last_integral_append]
  have hw : w.chid = ((w.chid.toNat : Nat) : Int) := (Int.toNat_of_nonneg h0).symm
  simp only [last_integral, hnone later hlater]
  rw [if_pos hw]

theorem holds_last_store_waveforms (ws : List CENNSWaveform) :
    ∀ (st : LoopState) (done : List CENNSWaveform), holds_last st done →
      (∀ w ∈ ws, 0 ≤ w.chid ∧ w.chid.toNat < st.channel_integrals.length) →
      holds_last (store_waveforms st ws) (done ++ ws) := by
  induction ws with
  | nil =>
    intro st done h _
    simpa [store_waveforms_nil] using h
  | cons a ws ih =>
    intro st done h hrange
    have ha := hrange a (List.mem_cons_self _ _)
    have hstep : holds_last (store_integral st a.chid (waveform_integral a)) (done ++ [a]) := by
      intro j v hv
      rw [last_integral_append] at hv
      rw [store_integral_slot]
      by_cases hj : a.chid.toNat = j
      · have haj : a.chid = (j : Int) := by omega
        simp only [last_integral, haj, if_true] at hv
        rw [if_pos hj, if_pos ha.2]
        exact hv
      · have haj : ¬ a.chid = (j : Int) := by omega
        simp only [last_integral, haj, if_false] at hv
        rw [if_neg hj]
        exact h j v hv
    have := ih (store_integral st a.chid (waveform_integral a)) (done ++ [a]) hstep
      (fun w hw => by
        rw [store_integral_length]
        exact hrange w (List.mem_cons_of_mem _ hw))
    rw [store_waveforms_cons]
    simpa using this

theorem grown_slot (st : LoopState) (k j : Nat) (hj : j < st.channel_integrals.length) :
    (grown st k).channel_integrals[j]? = st.channel_integrals[j]? := by
  simp only [grown]
  exact List.getElem?_append_left hj

theorem holds_last_grown (st : LoopState) (k : Nat) (done : List CENNSWaveform)
    (h : holds_last st done) : holds_last (grown st k) done := by
  intro j v hv
  have hs := h j v hv
  have hj : j < st.channel_integrals.length := by
    by_contra hge
    rw [List.getElem?_eq_none (by omega)] at hs
    cases hs
  rw [grown_slot st k j hj]
  exact hs

/-- Over the DAQ records of one event: the slots outside the channel ids seen hold
0, every written channel holds the integral of its last waveform, and every channel
id is a valid index of the final vector. -/
theorem fold_daqdata_slots (daq_v : List CENNSDAQ) :
    ∀ (st r : LoopState) (seen : List Int) (done : List CENNSWaveform),
      st.channel_integrals.length ≤ st.n_channels.toNat →
      zero_outside st seen → holds_last st done →
      List.foldlM process_daqdata st daq_v = some r →
      zero_outside r (seen ++ event_chids (some daq_v)) ∧
      holds_last r (done ++ all_waveforms (some daq_v)) ∧
      (∀ w ∈ all_waveforms (some daq_v), 0 ≤ w.chid ∧ w.chid < r.n_channels) := by
  induction daq_v with
  | nil =>
    intro st r seen done _ hz hl hr
    rw [foldlM_some_nil] at hr
    subst hr
    refine ⟨?_, ?_, ?_⟩
    · simpa [event_chids] using hz
    · simpa [all_waveforms] using hl
    · intro w hw
      simp [all_waveforms] at hw
  | cons d ds ih =>
    intro st r seen done hlen hz hl hr
    rw [foldlM_some_cons] at hr
    obtain ⟨s2, h2, h3⟩ := hr
    have hL := process_daqdata_length st s2 d hlen h2
    rw [process_daqdata_eq_some st s2 d hlen] at h2
    obtain ⟨hrange, hs2⟩ := h2
    have hgl := grown_length st d.waveforms.length hlen
    have hgn : (grown st d.waveforms.length).n_channels
        = max st.n_channels (d.waveforms.length : Int) := rfl
    have hrange2 : ∀ w ∈ d.waveforms, 0 ≤ w.chid ∧
        w.chid.toNat < (grown st d.waveforms.length).channel_integrals.length := by
      intro w hw
      have := hrange w hw
      rw [hgl, hgn]
      refine ⟨this.1, ?_⟩
      omega
    have hz2 : zero_outside s2 (seen ++ d.waveforms.map (fun w => w.chid)) := by
      rw [hs2]
      exact zero_outside_store_waveforms _ _ _ (zero_outside_grown st _ seen hz)
        (fun w hw => (hrange w hw).1)
    have hl2 : holds_last s2 (done ++ d.waveforms) := by
      rw [hs2]
      exact holds_last_store_waveforms _ _ _ (holds_last_grown st _ done hl) hrange2
    have hrec := ih s2 r (seen ++ d.waveforms.map (fun w => w.chid)) (done ++ d.waveforms)
      (by rw [hL.1]) hz2 hl2 h3
    have hchids : event_chids (some (d :: ds))
        = d.waveforms.map (fun w => w.chid) ++ event_chids (some ds) := by
      simp [event_chids]
    have hall : all_waveforms (some (d :: ds)) = d.waveforms ++ all_waveforms (some ds) := by
      simp [all_waveforms]
    have hmono := (fold_daqdata_n_channels ds s2 r (by rw [hL.1]) h3).1
    rw [hchids, hall, ← List.append_assoc, ← List.append_assoc]
    refine ⟨hrec.1, hrec.2.1, ?_⟩
    intro w hw
    rw [List.mem_append] at hw
    rcases hw with hw | hw
    · have := hrange w hw
      rw [hL.2] at hmono
      exact ⟨this.1, lt_of_lt_of_le this.2 hmono⟩
    · exact hrec.2.2 w hw

/-! ## Helper lemmas: the total and the slots in their orders -/

theorem event_chids_eq (daq : Option (List CENNSDAQ)) :
    event_chids daq = (all_waveforms daq).map (fun wfm => wfm.chid) := by
  cases daq <;> rfl

/-- Line 269 over a list of waveforms: the integrals are added to
`all_channel_integral` one by one, in processing order. -/
theorem store_waveforms_total_in_order (ws : List CENNSWaveform) :
    ∀ st : LoopState, (store_waveforms st ws).all_channel_integral
      = ws.foldl (fun total wfm => total + waveform_integral wfm) st.all_channel_integral := by
  induction ws with
  | nil => intro st; rfl
  | cons w ws ih =>
    intro st
    rw [store_waveforms_cons, ih, List.foldl_cons]
    rfl

theorem fold_daqdata_all_channel_integral (daq_v : List CENNSDAQ) :
    ∀ (st r : LoopState), st.channel_integrals.length ≤ st.n_channels.toNat →
      List.foldlM process_daqdata st daq_v = some r →
      r.all_channel_integral
        = (all_waveforms (some daq_v)).foldl
            (fun total wfm => total + waveform_integral wfm) st.all_channel_integral := by
  induction daq_v with
  | nil =>
    intro st r _ hr
    rw [foldlM_some_nil] at hr
    rw [hr]
    rfl
  | cons d ds ih =>
    intro st r hlen hr
    rw [foldlM_some_cons] at hr
    obtain ⟨s2, h2, h3⟩ := hr
    have hL := process_daqdata_length st s2 d hlen h2
    rw [process_daqdata_eq_some st s2 d hlen] at h2
    obtain ⟨_, hs2⟩ := h2
    have hall : all_waveforms (some (d :: ds)) = d.waveforms ++ all_waveforms (some ds) := by
      simp [all_waveforms]
    rw [hall, List.foldl_append, ih s2 r (by rw [hL.1]) h3, hs2,
      store_waveforms_total_in_order]
    rfl

/-- One event: the slots outside the channel ids of the event hold 0, every written
channel holds the integral of its last waveform, every channel id is a valid index,
and `all_channel_integral` is the sum of the integrals accumulated from 0 in
processing order. -/
theorem process_event_slots (volume_names : List String) (st r : LoopState) (i : Nat)
    (ev : Event) (hr : process_event volume_names st i ev = some r) :
    zero_outside r (event_chids ev.cenns_daq_v) ∧
    holds_last r (all_waveforms ev.cenns_daq_v) ∧
    (∀ w ∈ all_waveforms ev.cenns_daq_v, 0 ≤ w.chid ∧ w.chid < r.n_channels) ∧
    r.all_channel_integral
      = (all_waveforms ev.cenns_daq_v).foldl
          (fun total wfm => total + waveform_integral wfm) 0 := by
  obtain ⟨hci, _, haci⟩ := truth_state_channel_fields volume_names st i ev.tg4_event
  have hz0 : zero_outside (truth_state volume_names st i ev.tg4_event) [] := by
    intro j x hx _
    rw [hci] at hx
    simp at hx
  have hl0 : holds_last (truth_state volume_names st i ev.tg4_event) [] := by
    intro j v hv
    simp [last_integral] at hv
  rw [process_event_eq] at hr
  cases hd : ev.cenns_daq_v with
  | none =>
    rw [hd] at hr
    simp only [extract_channels, Option.some.injEq] at hr
    subst hr
    refine ⟨?_, ?_, ?_, ?_⟩
    · intro j x hx _
      exact hz0 j x hx (by simp)
    · exact hl0
    · intro w hw
      simp [all_waveforms] at hw
    · exact haci
  | some daq_v =>
    rw [hd] at hr
    have hlen0 : (truth_state volume_names st i ev.tg4_event).channel_integrals.length
        ≤ (truth_state volume_names st i ev.tg4_event).n_channels.toNat := by
      rw [hci]
      exact Nat.zero_le _
    have hslots := fold_daqdata_slots daq_v _ r [] [] hlen0 hz0 hl0 hr
    have htotal := fold_daqdata_all_channel_integral daq_v _ r hlen0 hr
    rw [haci] at htotal
    rw [List.nil_append] at hslots
    rw [List.nil_append] at hslots
    exact ⟨hslots.1, hslots.2.1, hslots.2.2, htotal⟩

/-- A vector that holds the integrals of waveforms with ascending channel ids at
these ids (counted from `o`) and 0 in every other slot: adding up its slots in index
order adds the integrals in the order of the waveforms. The proof uses of the
addition only that adding 0 changes nothing. -/
theorem foldl_slots_ascending (l : List Double_t) :
    ∀ (o : Nat) (ws : List CENNSWaveform) (e : Double_t),
      (ws.map (fun wfm => wfm.chid)).Sorted (· < ·) →
      (∀ w ∈ ws, (o : Int) ≤ w.chid) →
      (∀ w ∈ ws, l[w.chid.toNat - o]? = some (waveform_integral w)) →
      (∀ j : Nat, j < l.length → ((j + o : Nat) : Int) ∉ ws.map (fun wfm => wfm.chid) →
        l[j]? = some 0) →
      l.foldl (fun sum x => sum + x) e
        = ws.foldl (fun total wfm => total + waveform_integral wfm) e := by
  induction l with
  | nil =>
    intro o ws e _ _ hslot _
    cases ws with
    | nil => rfl
    | cons w ws =>
      have := hslot w (List.mem_cons_self _ _)
      simp at this
  | cons a l ih =>
    intro o ws e hsorted hlow hslot hzero
    cases ws with
    | nil =>
      have ha : a = 0 := by
        have := hzero 0 (by simp) (by simp)
        simpa using this
      have hrec := ih (o + 1) [] (e + a) List.sorted_nil (fun w hw => by cases hw)
        (fun w hw => by cases hw)
        (fun j hj _ => by
          have := hzero (j + 1) (by simp only [List.length_cons]; omega) (by simp)
          simpa using this)
      rw [List.foldl_cons, hrec, ha]
      simp
    | cons w ws =>
      rw [List.map_cons, List.sorted_cons] at hsorted
      obtain ⟨hlt, hs⟩ := hsorted
      have hlt1 : ∀ x ∈ ws, w.chid < x.chid :=
        fun x hx => hlt x.chid (List.mem_map.mpr ⟨x, hx, rfl⟩)
      have hwlow := hlow w (List.mem_cons_self _ _)
      by_cases hw : w.chid = (o : Int)
      · have ha : a = waveform_integral w := by
          have := hslot w (List.mem_cons_self _ _)
          rw [show w.chid.toNat - o = 0 by omega] at this
          simpa using this
        have hrec := ih (o + 1) ws (e + a) hs
          (fun x hx => by have := hlt1 x hx; push_cast; omega)
          (fun x hx => by
            have h1 := hslot x (List.mem_cons_of_mem _ hx)
            have h2 := hlt1 x hx
            rw [show x.chid.toNat - o = (x.chid.toNat - (o + 1)) + 1 by omega] at h1
            simpa using h1)
          (fun j hj hnot => by
            have := hzero (j + 1) (by simp only [List.length_cons]; omega) (by
              intro hmem
              rw [List.map_cons, List.mem_cons] at hmem
              rcases hmem with h | h
              · push_cast at h
                omega
              · apply hnot
                rw [show j + (o + 1) = j + 1 + o by omega]
                exact h)
            simpa using this)
        rw [List.foldl_cons, List.foldl_cons, hrec, ha]
      · have ha : a = 0 := by
          have := hzero 0 (by simp) (by
            intro hmem
            rw [List.map_cons, List.mem_cons] at hmem
            rcases hmem with h | h
            · push_cast at h
              omega
            · obtain ⟨x, hx, hxc⟩ := List.mem_map.mp h
              have := hlt1 x hx
              push_cast at hxc
              omega)
          simpa using this
        have hrec := ih (o + 1) (w :: ws) e
          (by rw [List.map_cons, List.sorted_cons]; exact ⟨hlt, hs⟩)
          (fun x hx => by
            rw [List.mem_cons] at hx
            rcases hx with h | h
            · subst h
              push_cast
              omega
            · have := hlt1 x h
              push_cast
              omega)
          (fun x hx => by
            have h1 := hslot x hx
            have h2 : (o : Int) < x.chid := by
              rw [List.mem_cons] at hx
              rcases hx with h | h
              · subst h
                omega
              · have := hlt1 x h
                omega
            rw [show x.chid.toNat - o = (x.chid.toNat - (o + 1)) + 1 by omega] at h1
            simpa using h1)
          (fun j hj hnot => by
            have := hzero (j + 1) (by simp only [List.length_cons]; omega) (by
              intro hmem
              apply hnot
              rw [show j + (o + 1) = j + 1 + o by omega]
              exact hmem)
            simpa using this)
        rw [List.foldl_cons, ha, add_zero, hrec]

/-! ## C4 (amended) -/

/-- C4 (amended): for a record that is emitted (every store of the event was inside
the vector), whose n_channels is above every channel id observed in the event and
whose event has no two waveforms with the same channel id: every waveform finds its
integral in the slot of its channel id, every other slot holds 0, and
all_channel_integral is the sum of the same integrals, accumulated from 0 in
processing order. When the channel ids ascend in processing order, adding up the
slots of channel_integrals from index 0 on gives all_channel_integral. -/
theorem C4_integrals_by_slot_and_in_order (volume_names : List String) (st : LoopState)
    (i : Nat) (ev : Event) (r : LoopState)
    (hr : process_event volume_names st i ev = some r)
    (_hcover : ∀ c ∈ event_chids ev.cenns_daq_v, c < r.n_channels)
    (hdistinct : (event_chids ev.cenns_daq_v).Nodup) :
    (∀ w ∈ all_waveforms ev.cenns_daq_v,
      0 ≤ w.chid ∧ r.channel_integrals[w.chid.toNat]? = some (waveform_integral w)) ∧
    (∀ j : Nat, j < r.channel_integrals.length → (j : Int) ∉ event_chids ev.cenns_daq_v →
      r.channel_integrals[j]? = some 0) ∧
    r.all_channel_integral
      = (all_waveforms ev.cenns_daq_v).foldl
          (fun total wfm => total + waveform_integral wfm) 0 ∧
    ((event_chids ev.cenns_daq_v).Sorted (· < ·) →
      r.channel_integrals.foldl (fun sum x => sum + x) 0 = r.all_channel_integral) := by
  obtain ⟨hzero, hlast, hrange, htotal⟩ := process_event_slots volume_names st r i ev hr
  have hslot : ∀ w ∈ all_waveforms ev.cenns_daq_v,
      0 ≤ w.chid ∧ r.channel_integrals[w.chid.toNat]? = some (waveform_integral w) := by
    intro w hw
    have h0 := (hrange w hw).1
    refine ⟨h0, ?_⟩
    obtain ⟨earlier, later, hsplit⟩ := List.append_of_mem hw
    apply hlast
    rw [hsplit]
    apply last_integral_of_last earlier later w h0
    intro x hx hxw
    rw [event_chids_eq, hsplit, List.map_append, List.map_cons, List.nodup_append,
      List.nodup_cons] at hdistinct
    exact hdistinct.2.1.1 (List.mem_map.mpr ⟨x, hx, hxw⟩)
  have hzeros : ∀ j : Nat, j < r.channel_integrals.length →
      (j : Int) ∉ event_chids ev.cenns_daq_v → r.channel_integrals[j]? = some 0 := by
    intro j hj hnot
    obtain ⟨x, hx⟩ : ∃ x, r.channel_integrals[j]? = some x := ⟨_, List.getElem?_eq_getElem hj⟩
    rw [hx, hzero j x hx hnot]
  refine ⟨hslot, hzeros, htotal, ?_⟩
  intro hsorted
  rw [htotal]
  rw [event_chids_eq] at hsorted
  apply foldl_slots_ascending r.channel_integrals 0 (all_waveforms ev.cenns_daq_v) 0 hsorted
  · intro w hw
    exact_mod_cast (hrange w hw).1
  · intro w hw
    exact (hslot w hw).2
  · intro j hj hnot
    apply hzeros j hj
    rw [event_chids_eq]
    exact hnot

/-- An instance of C4 (amended): the three scenario waveforms on the channels
0, 1, 2. Each slot holds 6, the integral of its waveform; all_channel_integral is
((0 + 6) + 6) + 6, and so is the sum of the slots from index 0 on. -/
theorem C4_integrals_scenario :
    process_event ["LArVol"] (scenario_state 2) 0
        ⟨none, some [⟨[scenario_waveform 0, scenario_waveform 1, scenario_waveform 2]⟩]⟩
      = some scenario_channels_record ∧
    scenario_channels_record.channel_integrals[(scenario_waveform 1).chid.toNat]?
      = some (waveform_integral (scenario_waveform 1)) ∧
    scenario_channels_record.all_channel_integral
      = [scenario_waveform 0, scenario_waveform 1, scenario_waveform 2].foldl
          (fun total wfm => total + waveform_integral wfm) 0 ∧
    scenario_channels_record.channel_integrals.foldl (fun sum x => sum + x) 0
      = scenario_channels_record.all_channel_integral := by
  have hr : process_event ["LArVol"] (scenario_state 2) 0
        ⟨none, some [⟨[scenario_waveform 0, scenario_waveform 1, scenario_waveform 2]⟩]⟩
      = some scenario_channels_record := by
    simp [process_event, truth_state, extract_channels, extract_volumes, extract_primary,
      reset_variables,
      scenario_state, process_daqdata, grow_to_nwaveforms,
      resize, process_waveform, grow_to_chid, store_integral, waveform_integral,
      scenario_waveform, scenario_channels_record]
    norm_num
  have h := C4_integrals_by_slot_and_in_order ["LArVol"] (scenario_state 2) 0 _ _ hr
    (by simp [event_chids, scenario_waveform, scenario_channels_record])
    (by simp [event_chids, scenario_waveform])
  refine ⟨hr, (h.1 (scenario_waveform 1) (by simp [all_waveforms])).2, ?_, ?_⟩
  · have := h.2.2.1
    simpa [all_waveforms] using this
  · exact h.2.2.2 (by simp [event_chids, scenario_waveform])

/-! ## C13 to C15 -/

/-- C13 at the failing input: a DAQ record with one waveform on channel 1, from
n_channels 0. The first growth step leaves one slot, the second one (1 >= 1) sets
n_channels to 1 and resizes to 1 again, so the vector has no slot at index 1: the
store is outside the vector and no record is emitted. The same holds for every
channel id at or above n_channels: the second growth step leaves exactly `chid`
slots, the indices 0..chid-1. -/
theorem C13_growth_leaves_no_slot_at_chid :
    grow_to_nwaveforms (truth_state [] zero_state 0 (some empty_truth)) 1 = some one_slot_state ∧
    grow_to_chid one_slot_state (unit_waveform 1).chid = some one_slot_state ∧
    one_slot_state.channel_integrals.length = 1 ∧
    one_slot_state.channel_integrals[1]? = none ∧
    process_waveform one_slot_state (unit_waveform 1) = none ∧
    process_event [] zero_state 0 ⟨some empty_truth, some [⟨[unit_waveform 1]⟩]⟩ = none ∧
    (∀ (st s : LoopState) (chid : Int), 0 ≤ chid → st.n_channels ≤ chid →
      grow_to_chid st chid = some s →
      s.channel_integrals.length = chid.toNat ∧ s.channel_integrals[chid.toNat]? = none) := by
  refine ⟨?_, ?_, rfl, rfl, ?_, ?_, ?_⟩
  · simp [grow_to_nwaveforms, truth_state, extract_volumes, extract_primary, reset_variables,
      zero_state, initial_state, create_volume_branches, resize, one_slot_state, empty_truth]
  · simp [grow_to_chid, resize, one_slot_state, unit_waveform]
  · simp [process_waveform, grow_to_chid, resize, one_slot_state, unit_waveform]
  · simp [process_event, truth_state, extract_channels, extract_volumes, extract_primary,
      reset_variables, zero_state, initial_state, create_volume_branches, process_daqdata,
      grow_to_nwaveforms, resize, process_waveform, grow_to_chid, unit_waveform, empty_truth]
  · intro st s chid _ hge hs
    unfold grow_to_chid at hs
    rw [if_pos hge, Option.map_eq_some'] at hs
    obtain ⟨v, hv, rfl⟩ := hs
    have hl := resize_length _ _ _ _ hv
    refine ⟨hl, ?_⟩
    exact List.getElem?_eq_none (by simp only; omega)

/-- C14: for an event with at least one DAQ record, whatever the loop state held
before, the emitted channel_integrals has n_channels slots and every slot whose
index is not the channel id of a waveform of the event holds 0. -/
theorem C14_unwritten_slots_hold_zero (volume_names : List String) (st : LoopState)
    (i : Nat) (ev : Event) (daq_v : List CENNSDAQ) (r : LoopState)
    (hd : ev.cenns_daq_v = some daq_v) (hne : daq_v ≠ [])
    (hr : process_event volume_names st i ev = some r) :
    r.channel_integrals.length = r.n_channels.toNat ∧
    (∀ j : Nat, j < r.channel_integrals.length → (j : Int) ∉ event_chids ev.cenns_daq_v →
      r.channel_integrals[j]? = some 0) := by
  obtain ⟨hci, _, _⟩ := truth_state_channel_fields volume_names st i ev.tg4_event
  have hlen0 : (truth_state volume_names st i ev.tg4_event).channel_integrals.length
      ≤ (truth_state volume_names st i ev.tg4_event).n_channels.toNat := by
    rw [hci]
    exact Nat.zero_le _
  rw [process_event_eq, hd] at hr
  have hz0 : zero_outside (truth_state volume_names st i ev.tg4_event) [] := by
    intro j x hx _
    rw [hci] at hx
    simp at hx
  have hl0 : holds_last (truth_state volume_names st i ev.tg4_event) [] := by
    intro j v hv
    simp [last_integral] at hv
  have hslots := fold_daqdata_slots daq_v _ r [] [] hlen0 hz0 hl0 hr
  have hn := fold_daqdata_n_channels daq_v _ r hlen0 hr
  refine ⟨hn.2.1 hne, ?_⟩
  intro j hj hnot
  rw [hd] at hnot
  obtain ⟨x, hx⟩ : ∃ x, r.channel_integrals[j]? = some x := ⟨_, List.getElem?_eq_getElem hj⟩
  have := hslots.1 j x hx (by simpa using hnot)
  rw [hx, this]

/-- An instance of C14: the three scenario waveforms on the channels 0, 1, 2 from a
state that held [4, 4] and n_channels 5: the slots 3 and 4 hold 0. -/
theorem C14_unwritten_slots_scenario :
    process_event ["LArVol"] (scenario_state 5) 0
        ⟨none, some [⟨[scenario_waveform 0, scenario_waveform 1, scenario_waveform 2]⟩]⟩
      = some padded_channels_record ∧
    padded_channels_record.channel_integrals.length = padded_channels_record.n_channels.toNat ∧
    padded_channels_record.channel_integrals[3]? = some 0 ∧
    padded_channels_record.channel_integrals[4]? = some 0 := by
  have hr : process_event ["LArVol"] (scenario_state 5) 0
        ⟨none, some [⟨[scenario_waveform 0, scenario_waveform 1, scenario_waveform 2]⟩]⟩
      = some padded_channels_record := by
    simp [process_event, truth_state, extract_channels, extract_volumes, extract_primary,
      reset_variables, scenario_state, process_daqdata, grow_to_nwaveforms,
      resize, process_waveform, grow_to_chid, store_integral, waveform_integral,
      scenario_waveform, padded_channels_record]
    norm_num
  have h := C14_unwritten_slots_hold_zero ["LArVol"] (scenario_state 5) 0 _ _
    padded_channels_record rfl (by simp) hr
  refine ⟨hr, h.1, h.2 3 (by simp [padded_channels_record]) ?_,
    h.2 4 (by simp [padded_channels_record]) ?_⟩
  · simp [event_chids, scenario_waveform]
  · simp [event_chids, scenario_waveform]

/-- C15: in an emitted record, the slot of a channel id holds the integral of the
last waveform of the event (over all its DAQ records, in processing order) that
carries this channel id, whatever the integrals of the earlier ones; and the growth
step at the head of a DAQ record keeps every slot the vector already has. -/
theorem C15_last_waveform_of_a_channel_wins (volume_names : List String) (st : LoopState)
    (i : Nat) (ev : Event) (r : LoopState)
    (hr : process_event volume_names st i ev = some r) :
    (∀ (earlier later : List CENNSWaveform) (w : CENNSWaveform),
      all_waveforms ev.cenns_daq_v = earlier ++ w :: later →
      (∀ x ∈ later, x.chid ≠ w.chid) →
      r.channel_integrals[w.chid.toNat]? = some (waveform_integral w)) ∧
    (∀ (s s1 : LoopState) (nwaveforms j : Nat),
      s.channel_integrals.length ≤ s.n_channels.toNat →
      grow_to_nwaveforms s (nwaveforms : Int) = some s1 →
      j < s.channel_integrals.length →
      s1.channel_integrals[j]? = s.channel_integrals[j]?) := by
  constructor
  · intro earlier later w hall hlater
    obtain ⟨hci, _, _⟩ := truth_state_channel_fields volume_names st i ev.tg4_event
    rw [process_event_eq] at hr
    cases hd : ev.cenns_daq_v with
    | none =>
      rw [hd] at hall
      simp [all_waveforms] at hall
    | some daq_v =>
      rw [hd] at hr hall
      have hlen0 : (truth_state volume_names st i ev.tg4_event).channel_integrals.length
          ≤ (truth_state volume_names st i ev.tg4_event).n_channels.toNat := by
        rw [hci]
        exact Nat.zero_le _
      have hz0 : zero_outside (truth_state volume_names st i ev.tg4_event) [] := by
        intro j x hx _
        rw [hci] at hx
        simp at hx
      have hl0 : holds_last (truth_state volume_names st i ev.tg4_event) [] := by
        intro j v hv
        simp [last_integral] at hv
      have hslots := fold_daqdata_slots daq_v _ r [] [] hlen0 hz0 hl0 hr
      have hw : w ∈ all_waveforms (some daq_v) := by
        rw [hall]
        simp
      have h0 := (hslots.2.2 w hw).1
      apply hslots.2.1
      rw [List.nil_append, hall]
      exact last_integral_of_last earlier later w h0 hlater
  · intro s s1 nwaveforms j hlen hs hj
    rw [grow_to_nwaveforms_eq s nwaveforms hlen] at hs
    cases hs
    exact grown_slot s nwaveforms j hj

/-- An instance of C15: integral 7 on channel 0 in a first DAQ record, integrals 2
and then 3 on channel 1 in a second one. Slot 1 holds 3, and slot 0 still holds 7
after the vector grew from one to two slots. -/
theorem C15_last_waveform_scenario :
    process_event [] zero_state 0 ⟨some empty_truth, some overwriting_daq⟩
      = some overwritten_record ∧
    overwritten_record.channel_integrals[(flat_waveform 1 3).chid.toNat]?
      = some (waveform_integral (flat_waveform 1 3)) ∧
    waveform_integral (flat_waveform 1 3) = 3 ∧
    overwritten_record.channel_integrals[(flat_waveform 0 7).chid.toNat]?
      = some (waveform_integral (flat_waveform 0 7)) ∧
    waveform_integral (flat_waveform 0 7) = 7 := by
  have hr : process_event [] zero_state 0 ⟨some empty_truth, some overwriting_daq⟩
      = some overwritten_record := by
    simp [process_event, truth_state, extract_channels, extract_volumes, extract_primary,
      reset_variables, zero_state, initial_state, create_volume_branches, process_daqdata,
      grow_to_nwaveforms, resize, process_waveform, grow_to_chid, store_integral,
      waveform_integral, flat_waveform, overwriting_daq, overwritten_record, empty_truth]
    norm_num
  have h := (C15_last_waveform_of_a_channel_wins [] zero_state 0
    ⟨some empty_truth, some overwriting_daq⟩ overwritten_record hr).1
  refine ⟨hr, ?_, ?_, ?_, ?_⟩
  · exact h [flat_waveform 0 7, flat_waveform 1 2] [] (flat_waveform 1 3)
      (by simp [all_waveforms, overwriting_daq]) (by simp)
  · simp [waveform_integral, flat_waveform]
  · exact h [] [flat_waveform 1 2, flat_waveform 1 3] (flat_waveform 0 7)
      (by simp [all_waveforms, overwriting_daq]) (by simp [flat_waveform])
  · simp [waveform_integral, flat_waveform]

/-! ## Helper lemmas: runs that complete -/

theorem fold_daqdata_total (daq_v : List CENNSDAQ) :
    ∀ st : LoopState, st.channel_integrals.length ≤ st.n_channels.toNat →
      (∀ d ∈ daq_v, ∀ w ∈ d.waveforms, 0 ≤ w.chid ∧ w.chid < (d.waveforms.length : Int)) →
      ∃ r, List.foldlM process_daqdata st daq_v = some r := by
  induction daq_v with
  | nil =>
    intro st _ _
    exact ⟨st, (foldlM_some_nil _ _ _).mpr rfl⟩
  | cons d ds ih =>
    intro st hlen hrange
    have h2 : process_daqdata st d
        = some (store_waveforms (grown st d.waveforms.length) d.waveforms) := by
      rw [process_daqdata_eq_some st _ d hlen]
      refine ⟨fun w hw => ?_, rfl⟩
      have := hrange d (List.mem_cons_self _ _) w hw
      exact ⟨this.1, lt_of_lt_of_le this.2 (le_max_right _ _)⟩
    have hL := process_daqdata_length st _ d hlen h2
    obtain ⟨r, hr⟩ := ih _ (by rw [hL.1])
      (fun x hx => hrange x (List.mem_cons_of_mem _ hx))
    exact ⟨r, (foldlM_some_cons _ _ _ _ _).mpr ⟨_, h2, hr⟩⟩

theorem process_event_total (volume_names : List String) (st : LoopState) (i : Nat)
    (ev : Event) (h : chids_below_count ev.cenns_daq_v = true) :
    ∃ r, process_event volume_names st i ev = some r := by
  obtain ⟨hci, _, _⟩ := truth_state_channel_fields volume_names st i ev.tg4_event
  rw [process_event_eq]
  cases hd : ev.cenns_daq_v with
  | none => exact ⟨_, rfl⟩
  | some daq_v =>
    rw [hd] at h
    simp only [chids_below_count, List.all_eq_true, decide_eq_true_eq] at h
    exact fold_daqdata_total daq_v _ (by rw [hci]; exact Nat.zero_le _) h

theorem event_loop_total (volume_names : List String) :
    ∀ (events : List Event) (st : LoopState) (i : Nat),
      (∀ ev ∈ events, chids_below_count ev.cenns_daq_v = true) →
      ∃ recs, event_loop volume_names st i events = some recs := by
  intro events
  induction events with
  | nil => intro st i _; exact ⟨[], rfl⟩
  | cons ev rest ih =>
    intro st i h
    obtain ⟨r, hr⟩ := process_event_total volume_names st i ev (h ev (List.mem_cons_self _ _))
    obtain ⟨tail, ht⟩ := ih r (i + 1) (fun x hx => h x (List.mem_cons_of_mem _ hx))
    exact ⟨r :: tail, (event_loop_cons _ _ _ _ _ _).mpr ⟨r, tail, hr, ht, rfl⟩⟩

theorem process_event_event_id (volume_names : List String) (st r : LoopState) (i : Nat)
    (ev : Event) (hr : process_event volume_names st i ev = some r) :
    r.event_id = to_Int_t (i : Int) := by
  have h := process_event_truth_fields volume_names st r i ev hr
  have h2 : r.event_id = (extract_volumes volume_names
      (extract_primary (reset_variables st i) ev.tg4_event) ev.tg4_event).event_id :=
    congrArg (fun t => t.1) h
  rw [h2]
  cases ev.tg4_event with
  | none => rfl
  | some tg4 =>
    unfold extract_volumes
    split_ifs <;> rfl

/-! ## C11 -/

/-- The warning is written exactly when the two entry counts differ; the loop
visits the indices 0 .. min-1 in order, entry `j` of both trees at index `j`; a run
that completes emits exactly min(count_A, count_B) records, the record at position
`j` being the one of index `j` (its event_id is `j` converted to `Int_t`), computed
from entry `j`; and the run completes whenever the channel ids stay below the
waveform counts of their DAQ records. -/
theorem loop_runs_over_the_shorter_tree (volume_names : List String)
    (cenns_tree : List (Option (List CENNSDAQ))) (edepsim_tree : List (Option TG4Event))
    (event_id0 : Int) (total_primary_energy0 : Double_t) (n_channels0 : Int) :
    (count_mismatch_warning cenns_tree.length edepsim_tree.length = true ↔
      cenns_tree.length ≠ edepsim_tree.length) ∧
    n_entries cenns_tree.length edepsim_tree.length
      = min cenns_tree.length edepsim_tree.length ∧
    (get_entries cenns_tree edepsim_tree).length
      = n_entries cenns_tree.length edepsim_tree.length ∧
    (∀ (j : Nat) (ev : Event), (get_entries cenns_tree edepsim_tree)[j]? = some ev →
      edepsim_tree[j]? = some ev.tg4_event ∧ cenns_tree[j]? = some ev.cenns_daq_v) ∧
    (∀ recs : List LoopState,
      main_records volume_names cenns_tree edepsim_tree event_id0 total_primary_energy0
        n_channels0 = some recs →
      recs.length = min cenns_tree.length edepsim_tree.length ∧
      ∀ (j : Nat) (r : LoopState), recs[j]? = some r →
        r.event_id = to_Int_t (j : Int) ∧
        ∃ ev, (get_entries cenns_tree edepsim_tree)[j]? = some ev ∧
          process_event volume_names
            (state_before
              (initial_state volume_names event_id0 total_primary_energy0 n_channels0) recs j)
            j ev = some r) ∧
    ((∀ ev ∈ get_entries cenns_tree edepsim_tree, chids_below_count ev.cenns_daq_v = true) →
      ∃ recs, main_records volume_names cenns_tree edepsim_tree event_id0
        total_primary_energy0 n_channels0 = some recs) := by
  have hlen : (get_entries cenns_tree edepsim_tree).length
      = min cenns_tree.length edepsim_tree.length := by
    simp [get_entries]
  refine ⟨?_, rfl, hlen, ?_, ?_, ?_⟩
  · simp [count_mismatch_warning]
  · intro j ev hev
    simp only [get_entries, List.getElem?_zipWith] at hev
    cases hc : cenns_tree[j]? with
    | none => rw [hc] at hev; simp at hev
    | some daq =>
      cases he : edepsim_tree[j]? with
      | none => rw [hc, he] at hev; simp at hev
      | some tg4 =>
        rw [hc, he] at hev
        simp at hev
        subst hev
        exact ⟨rfl, rfl⟩
  · intro recs hrun
    unfold main_records at hrun
    have hl := event_loop_length volume_names _ _ _ _ hrun
    refine ⟨hl.trans hlen, ?_⟩
    intro j r hj
    have hjlt : j < (get_entries cenns_tree edepsim_tree).length := by
      rw [← hl]
      by_contra hge
      rw [List.getElem?_eq_none (by omega)] at hj
      cases hj
    have hev : (get_entries cenns_tree edepsim_tree)[j]?
        = some ((get_entries cenns_tree edepsim_tree)[j]) := List.getElem?_eq_getElem hjlt
    have hstep := event_loop_step volume_names _ _ _ _ hrun j _ r hev hj
    rw [Nat.zero_add] at hstep
    exact ⟨process_event_event_id volume_names _ r j _ hstep, _, hev, hstep⟩
  · intro h
    exact event_loop_total volume_names _ _ 0 h

/-- A run that completes: a DAQ tree of two entries and a truth tree of three. The
warning is written and two records are emitted, for the indices 0 and 1. -/
theorem shorter_tree_scenario :
    count_mismatch_warning cenns_tree_then_empty.length edepsim_tree_of_three.length = true ∧
    main_records [] cenns_tree_then_empty edepsim_tree_of_three 0 0 0
      = some [three_channel_record, empty_daq_record] ∧
    [three_channel_record, empty_daq_record].length
      = min cenns_tree_then_empty.length edepsim_tree_of_three.length ∧
    three_channel_record.event_id = 0 ∧
    empty_daq_record.event_id = 1 := by
  have h := loop_runs_over_the_shorter_tree [] cenns_tree_then_empty
    edepsim_tree_of_three 0 0 0
  have hrun : main_records [] cenns_tree_then_empty edepsim_tree_of_three 0 0 0
      = some [three_channel_record, empty_daq_record] := by
    simp [main_records, get_entries, cenns_tree_then_empty, edepsim_tree_of_three, event_loop,
      process_event, truth_state, extract_channels, extract_volumes, extract_primary,
      reset_variables, initial_state, create_volume_branches, process_daqdata,
      grow_to_nwaveforms, resize, process_waveform, grow_to_chid, store_integral,
      waveform_integral, unit_waveform, scenario_truth, particle_with_energy,
      TLorentzVector.get, three_channel_record, empty_daq_record]
    norm_num
  have h5 := h.2.2.2.2.1 _ hrun
  exact ⟨h.1.mpr (by decide), hrun, h5.1, rfl, rfl⟩

theorem mem_whitespace_chars (c : Char) : c ∈ whitespace_chars ↔ is_blank c = true := by
  simp [whitespace_chars, is_blank, or_assoc]

theorem first_not_of_spec (l : List Char) :
    ∀ pos : Nat,
      match first_not_of whitespace_chars l pos with
      | none => l.dropWhile is_blank = []
      | some q => pos ≤ q ∧ q - pos ≤ l.length ∧ l.drop (q - pos) = l.dropWhile is_blank := by
  induction l with
  | nil => intro pos; simp [first_not_of]
  | cons c rest ih =>
    intro pos
    by_cases hc : c ∈ whitespace_chars
    · have hb : is_blank c = true := (mem_whitespace_chars c).mp hc
      have := ih (pos + 1)
      simp only [first_not_of, hc, if_true]
      cases hf : first_not_of whitespace_chars rest (pos + 1) with
      | none =>
        rw [hf] at this
        simpa [List.dropWhile_cons, hb] using this
      | some q =>
        rw [hf] at this
        simp only at this ⊢
        obtain ⟨h1, h2, h3⟩ := this
        have hq : q - pos = (q - (pos + 1)) + 1 := by omega
        refine ⟨by omega, ?_, ?_⟩
        · simp only [List.length_cons]; omega
        · rw [hq, List.drop_succ_cons, h3, List.dropWhile_cons, hb]
          rfl
    · have hb : ¬ is_blank c = true := fun h => hc ((mem_whitespace_chars c).mpr h)
      simp only [first_not_of, hc, if_false]
      refine ⟨le_refl _, by simp, ?_⟩
      simp [List.dropWhile_cons, hb]

theorem rdropWhile_cons (p : Char → Bool) (c : Char) (rest : List Char) :
    (c :: rest).rdropWhile p =
      if rest.rdropWhile p = [] then (if p c then [] else [c])
      else c :: rest.rdropWhile p := by
  induction rest using List.reverseRecOn with
  | nil => simp [List.rdropWhile_singleton]
  | append_singleton r x ih =>
    by_cases hx : p x = true
    · have h1 : (c :: (r ++ [x])).rdropWhile p = (c :: r).rdropWhile p := by
        rw [← List.cons_append]
        exact List.rdropWhile_concat_pos p (c :: r) x hx
      rw [h1, List.rdropWhile_concat_pos p r x hx, ih]
    · have h1 : (c :: (r ++ [x])).rdropWhile p = c :: (r ++ [x]) := by
        rw [← List.cons_append]
        exact List.rdropWhile_concat_neg p (c :: r) x hx
      rw [h1, List.rdropWhile_concat_neg p r x hx]
      simp

theorem last_not_of_spec (l : List Char) :
    ∀ pos : Nat,
      match last_not_of whitespace_chars l pos with
      | none => l.rdropWhile is_blank = []
      | some q => pos ≤ q ∧ q - pos < l.length ∧
          l.take (q - pos + 1) = l.rdropWhile is_blank := by
  induction l with
  | nil => intro pos; simp [last_not_of]
  | cons c rest ih =>
    intro pos
    have := ih (pos + 1)
    simp only [last_not_of]
    rw [rdropWhile_cons]
    cases hf : last_not_of whitespace_chars rest (pos + 1) with
    | none =>
      rw [hf] at this
      simp only at this
      rw [if_pos this]
      by_cases hc : c ∈ whitespace_chars
      · have hb : is_blank c = true := (mem_whitespace_chars c).mp hc
        simp [hc, hb]
      · have hb : ¬ is_blank c = true := fun h => hc ((mem_whitespace_chars c).mpr h)
        simp [hc, hb]
    | some q =>
      rw [hf] at this
      simp only at this ⊢
      obtain ⟨h1, h2, h3⟩ := this
      have hne : rest.rdropWhile is_blank ≠ [] := by
        rw [← h3]
        intro h
        rcases List.take_eq_nil_iff.mp h with hk | hr
        · omega
        · rw [hr] at h2
          simp at h2
      rw [if_neg hne]
      have hq : q - pos + 1 = (q - (pos + 1) + 1) + 1 := by omega
      refine ⟨by omega, ?_, ?_⟩
      · simp only [List.length_cons]; omega
      · rw [hq, List.take_succ_cons, h3]

theorem erase_front (l : List Char) (k : Nat) (hk : k ≤ l.length) :
    erase l 0 k = some (l.drop k) := by
  simp [erase, Nat.min_eq_left hk]

theorem erase_all (l : List Char) (hl : l.length ≤ npos) : erase l 0 npos = some [] := by
  simp [erase, Nat.min_eq_right hl]

theorem erase_tail (l : List Char) (q : Nat) (hq : q ≤ l.length) (hl : l.length ≤ npos) :
    erase l q npos = some (l.take q) := by
  have h1 : ¬ q > l.length := by omega
  have h2 : min npos (l.length - q) = l.length - q := Nat.min_eq_right (by omega)
  have h3 : q + (l.length - q) = l.length := by omega
  simp [erase, h1, h2, h3]

/-- Lines 52-53 remove exactly the leading and the trailing blanks of the line. -/
theorem trim_steps (l : List Char) (hl : l.length ≤ npos) :
    erase l 0 (find_first_not_of l whitespace_chars) = some (l.dropWhile is_blank) ∧
    erase (l.dropWhile is_blank)
        ((find_last_not_of (l.dropWhile is_blank) whitespace_chars + 1) % 2 ^ 64) npos
      = some ((l.dropWhile is_blank).rdropWhile is_blank) := by
  constructor
  · have h := first_not_of_spec l 0
    unfold find_first_not_of
    cases hf : first_not_of whitespace_chars l 0 with
    | none =>
      rw [hf] at h
      simp only at h
      rw [h]
      exact erase_all l hl
    | some q =>
      rw [hf] at h
      simp only [Nat.sub_zero] at h
      rw [← h.2.2]
      exact erase_front l q h.2.1
  · have hl1 : (l.dropWhile is_blank).length ≤ npos :=
      le_trans (List.Sublist.length_le (List.dropWhile_sublist _)) hl
    generalize l.dropWhile is_blank = m at hl1
    have h := last_not_of_spec m 0
    unfold find_last_not_of
    cases hf : last_not_of whitespace_chars m 0 with
    | none =>
      rw [hf] at h
      simp only at h
      rw [h]
      have : (Option.getD (none : Option Nat) npos + 1) % 2 ^ 64 = 0 := by
        simp [npos]
      rw [this]
      exact erase_all m hl1
    | some q =>
      rw [hf] at h
      simp only [Nat.sub_zero] at h
      have hq : (Option.getD (some q) npos + 1) % 2 ^ 64 = q + 1 := by
        simp only [Option.getD_some]
        apply Nat.mod_eq_of_lt
        have : npos < 2 ^ 64 := by simp [npos]
        omega
      rw [hq, ← h.2.2]
      exact erase_tail m (q + 1) (by omega) hl1

theorem read_line_eq (volumes : List String) (line : String)
    (hl : line.data.length ≤ npos) :
    read_line volumes line =
      some (if kept (trimmed line) = true then volumes ++ [trimmed line] else volumes) := by
  obtain ⟨h1, h2⟩ := trim_steps line.data hl
  unfold read_line
  rw [h1, Option.some_bind, h2, Option.some_bind]
  simp only [kept, trimmed]
  cases hm : (line.data.dropWhile is_blank).rdropWhile is_blank with
  | nil => simp
  | cons c rest =>
    by_cases hc : c = '#'
    · simp [hc]
    · simp [hc]

theorem fold_read_line (lines : List String) :
    ∀ volumes : List String, (∀ line ∈ lines, line.data.length ≤ npos) →
      List.foldlM read_line volumes lines
        = some (volumes ++ (lines.map trimmed).filter kept) := by
  induction lines with
  | nil => intro volumes _; simp [List.foldlM, pure]
  | cons line rest ih =>
    intro volumes h
    rw [List.foldlM_cons, read_line_eq volumes line (h line (List.mem_cons_self _ _))]
    simp only [bind, Option.some_bind]
    rw [ih _ (fun x hx => h x (List.mem_cons_of_mem _ hx))]
    by_cases hk : kept (trimmed line) = true
    · simp [hk, List.filter_cons]
    · simp [hk, List.filter_cons]

/-! ## C12 -/

theorem trimmed_ends (line : String) (h : (trimmed line).data ≠ []) :
    (∀ c, (trimmed line).data.head? = some c → is_blank c = false) ∧
    (∀ c, (trimmed line).data.getLast? = some c → is_blank c = false) := by
  have hdata : (trimmed line).data
      = (line.data.dropWhile is_blank).rdropWhile is_blank := rfl
  rw [hdata] at h ⊢
  constructor
  · intro c hc
    obtain ⟨t, ht⟩ := List.rdropWhile_prefix is_blank (l := line.data.dropWhile is_blank)
    cases hm : (line.data.dropWhile is_blank).rdropWhile is_blank with
    | nil => exact absurd hm h
    | cons a rest =>
      rw [hm] at hc ht
      simp only [List.head?_cons, Option.some.injEq] at hc
      subst hc
      have hne : line.data.dropWhile is_blank ≠ [] := by
        rw [← ht]
        simp
      have hhead := List.head_dropWhile_not is_blank line.data hne
      have : (line.data.dropWhile is_blank).head hne = a := by
        simp only [← ht, List.cons_append, List.head_cons]
      rw [this] at hhead
      exact hhead
  · intro c hc
    have hlast := List.rdropWhile_last_not is_blank (line.data.dropWhile is_blank) h
    rw [List.getLast?_eq_getLast _ h, Option.some.injEq] at hc
    rw [hc] at hlast
    simpa using hlast

/-- C12: for the lines of a readable volumes file, `read_volume_list` returns
without an exception, in file order, the lines with their leading and trailing
blanks (space, tab, carriage return, newline) removed that are then non-empty and do
not start with '#'; every returned name is non-empty, is no comment and neither
starts nor ends with a blank; a line of blanks only adds nothing. -/
theorem C12_read_volume_list_returns_trimmed_names (lines : List String)
    (hsize : ∀ line ∈ lines, line.data.length ≤ npos) :
    read_volume_list (some lines) = some ((lines.map trimmed).filter kept) ∧
    (∀ name ∈ (lines.map trimmed).filter kept,
      name.data ≠ [] ∧ name.data.head? ≠ some '#' ∧
      (∀ c, name.data.head? = some c → is_blank c = false) ∧
      (∀ c, name.data.getLast? = some c → is_blank c = false)) ∧
    (∀ line ∈ lines, (∀ c ∈ line.data, is_blank c = true) →
      ∀ volumes : List String, read_line volumes line = some volumes) := by
  refine ⟨?_, ?_, ?_⟩
  · have := fold_read_line lines [] hsize
    simpa [read_volume_list] using this
  · intro name hname
    rw [List.mem_filter, List.mem_map] at hname
    obtain ⟨⟨line, _, rfl⟩, hk⟩ := hname
    have hne : (trimmed line).data ≠ [] := by
      intro h
      simp [kept, h] at hk
    refine ⟨hne, ?_, trimmed_ends line hne⟩
    intro h
    simp [kept, h] at hk
  · intro line hline hblank volumes
    rw [read_line_eq volumes line (hsize line hline)]
    have hempty : (trimmed line).data = [] := by
      have h1 : line.data.dropWhile is_blank = [] :=
        List.dropWhile_eq_nil_iff.mpr hblank
      show (line.data.dropWhile is_blank).rdropWhile is_blank = []
      rw [h1]
      exact List.rdropWhile_nil is_blank
    simp [kept, hempty]

/-- An instance of C12: a file with names, blanks around a name, a line of blanks,
an empty line, a comment line and a name followed by text. -/
theorem C12_read_volume_list_scenario :
    read_volume_list (some scenario_volume_lines)
      = some ((scenario_volume_lines.map trimmed).filter kept) ∧
    (scenario_volume_lines.map trimmed).filter kept
      = ["LArVol", "volCryostat", "volPanel # front"] ∧
    read_line ["LArVol"] " \t " = some ["LArVol"] := by
  have h := C12_read_volume_list_returns_trimmed_names scenario_volume_lines (by decide)
  refine ⟨h.1, ?_, h.2.2 " \t " (by decide) (by decide) ["LArVol"]⟩
  have h2 : read_volume_list (some scenario_volume_lines)
      = some ["LArVol", "volCryostat", "volPanel # front"] := by decide
  rw [h.1] at h2
  exact Option.some.inj h2

end FlattenEdepInfo
